import Mathlib

/-!
Verification of sentry/models/file.py (content-addressed chunked blob storage)

Shallow embedding of the blob-storage core of `src/sentry/models/file.py`:

* `FileBlob` rows (content-addressed, deduplicated by SHA-1 checksum),
  `FileBlobIndex` rows (ordered mapping of a logical file to its blobs),
  a `Storage` backend (opaque path ↦ bytes store with a physical-write counter),
  all collected in a `BlobDB` record that is threaded explicitly through
  every operation (the Python code mutates Django models / the storage
  backend in place).
* SHA-1 itself is treated as an opaque pure function `sha1 : Bytes → Nat`,
  passed as a parameter to every operation that hashes; theorems that need
  collision-freeness state it as an explicit hypothesis.
* Byte strings are `List Nat`.
* Fallible operations return `Except String _`; a Django
  `transaction.atomic` block that rolls back is modelled by returning
  `.error` without the staged state (the caller keeps the pre-call `BlobDB`).
-/

namespace Sentry

/-- Byte strings (`bytes` in the Python source). -/
abbrev Bytes := List Nat

/-- A `FileBlob` row: `path` is the backend storage key, `checksum` the
SHA-1 digest of the content, `size` its length in bytes.  `id` is the
database primary key. -/
structure FileBlob where
  id : Nat
  checksum : Nat
  size : Nat
  path : Nat
  deriving Repr, DecidableEq

/-- A `FileBlobIndex` row: ties blob `blob` to the file `fileId` at byte
position `offset` within the logical file. -/
structure FileBlobIndex where
  fileId : Nat
  blob : FileBlob
  offset : Nat
  deriving Repr, DecidableEq

/-- The opaque storage backend (`get_storage()` in the source): a
path ↦ bytes map together with a counter of physical `save` calls. -/
structure Storage where
  saved : List (Nat × Bytes)
  writes : Nat
  deriving Repr, DecidableEq

/-- Python `storage.save(path, fileobj)`: one physical backend write. -/
def Storage.save (st : Storage) (path : Nat) (contents : Bytes) : Storage :=
  { saved := (path, contents) :: st.saved, writes := st.writes + 1 }

/-- Python `storage.open(path)` followed by reading all chunks
(`blob.getfile().chunks()`): the bytes stored at `path`. -/
def Storage.openPath (st : Storage) (path : Nat) : Bytes :=
  ((st.saved.find? (fun e => e.1 == path)).map Prod.snd).getD []

/-- The database state threaded through the operations: the `FileBlob`
table, the `FileBlobIndex` table, the storage backend and the id /
path generators (`uuid4` made deterministic). -/
structure BlobDB where
  blobs : List FileBlob
  indexes : List FileBlobIndex
  storage : Storage
  nextId : Nat
  nextPath : Nat
  deriving Repr, DecidableEq

/-- Python `_get_size_and_checksum(fileobj)`: stream the input and return
`(size, checksum.hexdigest())`. -/
def getSizeAndChecksum (sha1 : Bytes → Nat) (fileobj : Bytes) : Nat × Nat :=
  (fileobj.length, sha1 fileobj)

/-- Python `FileBlob.objects.get(checksum=checksum)` wrapped in the
`DoesNotExist` handler of `_locked_blob`: the first row with the given
checksum, if any (the column has a unique constraint). -/
def FileBlob.lookupChecksum (db : BlobDB) (checksum : Nat) : Option FileBlob :=
  db.blobs.find? (fun b => b.checksum == checksum)

/-- Python `FileBlob.from_file(fileobj)`: hash, then under the per-checksum lock
either return the existing row (dedup hit, no storage write) or generate
a unique path, write the bytes to the backend and persist a new row.
The per-checksum lock makes check-then-write atomic; sequential state
threading models the mutual exclusion it provides. -/
def FileBlob.from_file (sha1 : Bytes → Nat) (db : BlobDB) (fileobj : Bytes) :
    FileBlob × BlobDB :=
  let sc := getSizeAndChecksum sha1 fileobj
  match FileBlob.lookupChecksum db sc.2 with
  | some existing => (existing, db)
  | none =>
    let blob : FileBlob :=
      { id := db.nextId, checksum := sc.2, size := sc.1, path := db.nextPath }
    (blob,
      { blobs := db.blobs ++ [blob],
        indexes := db.indexes,
        storage := db.storage.save blob.path fileobj,
        nextId := db.nextId + 1,
        nextPath := db.nextPath + 1 })

/-- A `File` row (named `SFile` to avoid clashing with other libraries;
operations keep the source's `File.` names).  `headers`/`name`/`type`
play no role in the verified claims and are omitted. -/
structure SFile where
  id : Nat
  size : Nat
  checksum : Nat
  deriving Repr, DecidableEq

/-- The `while True: contents = fileobj.read(blob_size)` loop of
`File.putfile`: the successive chunks.  `read` returns the empty byte
string when the input is exhausted or when `blob_size = 0`, which
terminates the loop. -/
def chunkRead (blob_size : Nat) (fileobj : Bytes) : List Bytes :=
  if h : fileobj = [] ∨ blob_size = 0 then []
  else fileobj.take blob_size :: chunkRead blob_size (fileobj.drop blob_size)
termination_by fileobj.length
decreasing_by
  push_neg at h
  have h1 : 0 < fileobj.length := List.length_pos.mpr h.1
  simp only [List.length_drop]
  omega

/-- Body of the `putfile` loop: for each chunk, `FileBlob.from_file`,
then `FileBlobIndex.objects.create(file=self, blob=blob, offset=offset)`
and `offset += blob.size`.  Returns the created index rows, the final
offset and the updated database. -/
def File.putfileGo (sha1 : Bytes → Nat) (fileId : Nat) :
    List Bytes → Nat → BlobDB → List FileBlobIndex × Nat × BlobDB
  | [], offset, db => ([], offset, db)
  | contents :: rest, offset, db =>
    let bdb := FileBlob.from_file sha1 db contents
    let row : FileBlobIndex := { fileId := fileId, blob := bdb.1, offset := offset }
    let r := File.putfileGo sha1 fileId rest (offset + bdb.1.size)
      { bdb.2 with indexes := bdb.2.indexes ++ [row] }
    (row :: r.1, r.2)

/-- Python `File.putfile(fileobj, blob_size)`: split the input into chunks,
store each chunk via `FileBlob.from_file`, create index rows at the
running offset, and set `self.size`/`self.checksum`.  The running
`checksum.update(contents)` accumulation equals the SHA-1 of the
concatenation of all chunks read. -/
def File.putfile (sha1 : Bytes → Nat) (file : SFile) (db : BlobDB)
    (fileobj : Bytes) (blob_size : Nat) :
    List FileBlobIndex × SFile × BlobDB :=
  let chunks := chunkRead blob_size fileobj
  let r := File.putfileGo sha1 file.id chunks 0 db
  (r.1, { file with size := r.2.1, checksum := sha1 chunks.flatten }, r.2.2)

/-- Database well-formedness used by the putfile/assemble claims: every
blob row's `size` agrees with the length of any content hashing to its
`checksum`.  Holds for every database built by the storage operations
when the hash separates lengths (SHA-1 collision-freeness in the spec). -/
def SizeConsistent (sha1 : Bytes → Nat) (db : BlobDB) : Prop :=
  ∀ b ∈ db.blobs, ∀ c : Bytes, b.checksum = sha1 c → b.size = c.length

/-- The expected `(offset, size)` pairs of the index rows created for a
chunk list: offsets are the partial sums of the chunk lengths. -/
def offsetSizePairs (base : Nat) : List Bytes → List (Nat × Nat)
  | [] => []
  | c :: rest => (base, c.length) :: offsetSizePairs (base + c.length) rest

end Sentry

namespace Sentry

theorem from_file_size_eq (sha1 : Bytes → Nat) (db : BlobDB) (c : Bytes)
    (hdb : SizeConsistent sha1 db) :
    (FileBlob.from_file sha1 db c).1.size = c.length := by
  rcases hlk : FileBlob.lookupChecksum db (sha1 c) with _ | ex
  · have hlk' : db.blobs.find? (fun b => b.checksum == sha1 c) = none := hlk
    simp [FileBlob.from_file, getSizeAndChecksum, FileBlob.lookupChecksum, hlk']
  · have hmem : ex ∈ db.blobs := List.mem_of_find?_eq_some hlk
    have hck : ex.checksum = sha1 c := by
      have := List.find?_some hlk
      simpa using this
    have hsz := hdb ex hmem c hck
    have hlk' : db.blobs.find? (fun b => b.checksum == sha1 c) = some ex := hlk
    simp [FileBlob.from_file, getSizeAndChecksum, FileBlob.lookupChecksum, hlk', hsz]

theorem from_file_sizeConsistent (sha1 : Bytes → Nat) (db : BlobDB) (c : Bytes)
    (hdb : SizeConsistent sha1 db)
    (hlen : ∀ c c' : Bytes, sha1 c = sha1 c' → c.length = c'.length) :
    SizeConsistent sha1 (FileBlob.from_file sha1 db c).2 := by
  rcases hlk : FileBlob.lookupChecksum db (sha1 c) with _ | ex
  · have hlk' : db.blobs.find? (fun b => b.checksum == sha1 c) = none := hlk
    simp only [FileBlob.from_file, getSizeAndChecksum, FileBlob.lookupChecksum, hlk']
    intro b hb c' hck
    rcases List.mem_append.mp hb with hb | hb
    · exact hdb b hb c' hck
    · simp at hb
      subst hb
      simp at hck
      exact hlen c c' hck
  · have hlk' : db.blobs.find? (fun b => b.checksum == sha1 c) = some ex := hlk
    simp only [FileBlob.from_file, getSizeAndChecksum, FileBlob.lookupChecksum, hlk']
    exact hdb

theorem putfileGo_spec (sha1 : Bytes → Nat) (fileId : Nat)
    (hlen : ∀ c c' : Bytes, sha1 c = sha1 c' → c.length = c'.length) :
    ∀ (chunks : List Bytes) (offset : Nat) (db : BlobDB),
      SizeConsistent sha1 db →
      ((File.putfileGo sha1 fileId chunks offset db).1.map
          (fun r => (r.offset, r.blob.size)) = offsetSizePairs offset chunks) ∧
      (File.putfileGo sha1 fileId chunks offset db).2.1
        = offset + (chunks.map List.length).sum := by
  intro chunks
  induction chunks with
  | nil => intro offset db _; simp [File.putfileGo, offsetSizePairs]
  | cons c rest ih =>
    intro offset db hdb
    have hsz := from_file_size_eq sha1 db c hdb
    have hdb' : SizeConsistent sha1
        { (FileBlob.from_file sha1 db c).2 with
            indexes := (FileBlob.from_file sha1 db c).2.indexes ++
              [{ fileId := fileId, blob := (FileBlob.from_file sha1 db c).1,
                 offset := offset }] } := by
      intro b hb c' hck
      exact from_file_sizeConsistent sha1 db c hdb hlen b hb c' hck
    have hrec := ih (offset + (FileBlob.from_file sha1 db c).1.size) _ hdb'
    refine ⟨?_, ?_⟩
    · simp only [File.putfileGo, List.map_cons, offsetSizePairs]
      rw [hrec.1, hsz]
    · simp only [File.putfileGo, List.map_cons, List.sum_cons]
      rw [hrec.2, hsz]
      omega

theorem chunkRead_flatten (blob_size : Nat) (hbs : blob_size ≠ 0) :
    ∀ fileobj : Bytes, (chunkRead blob_size fileobj).flatten = fileobj := by
  intro fileobj
  induction fileobj using chunkRead.induct blob_size with
  | case1 fo h =>
    have hfo : fo = [] := by tauto
    subst hfo
    rw [chunkRead]
    simp
  | case2 fo h ih =>
    rw [chunkRead]
    simp only [dif_neg h, List.flatten_cons, ih]
    exact List.take_append_drop _ _

theorem chunkRead_ne_nil (blob_size : Nat) (hbs : blob_size ≠ 0) :
    ∀ fileobj : Bytes, ∀ c ∈ chunkRead blob_size fileobj, c ≠ [] := by
  intro fileobj
  induction fileobj using chunkRead.induct blob_size with
  | case1 fo h =>
    rw [chunkRead]
    simp [h]
  | case2 fo h ih =>
    rw [chunkRead]
    simp only [dif_neg h]
    intro c hc
    rcases List.mem_cons.mp hc with hc2 | hc2
    · push_neg at h
      subst hc2
      simp [List.take_eq_nil_iff]
      tauto
    · exact ih c hc2

theorem offsetSizePairs_chain (rel : FileBlobIndex → FileBlobIndex → Prop)
    (hrel : ∀ a b : FileBlobIndex, b.offset = a.offset + a.blob.size →
      0 < a.blob.size → rel a b) :
    ∀ (l : List FileBlobIndex) (chunks : List Bytes) (base : Nat),
      l.map (fun r => (r.offset, r.blob.size)) = offsetSizePairs base chunks →
      (∀ c ∈ chunks, c ≠ []) →
      List.Chain' rel l := by
  intro l
  induction l with
  | nil => intro _ _ _ _; exact List.chain'_nil
  | cons r l' ih =>
    intro chunks base hmap hne
    cases chunks with
    | nil => simp [offsetSizePairs] at hmap
    | cons c rest =>
      simp only [offsetSizePairs, List.map_cons, List.cons.injEq] at hmap
      have hr : r.offset = base ∧ r.blob.size = c.length := by
        have := hmap.1
        exact ⟨congrArg Prod.fst this, congrArg Prod.snd this⟩
      have hchain' := ih rest (base + c.length) hmap.2 (fun c hc => hne c (by simp [hc]))
      cases l' with
      | nil => simp
      | cons r2 l'' =>
        refine List.chain'_cons.mpr ⟨?_, hchain'⟩
        cases rest with
        | nil => simp [offsetSizePairs] at hmap
        | cons c2 rest2 =>
          simp only [offsetSizePairs, List.map_cons, List.cons.injEq] at hmap
          have hr2 : r2.offset = base + c.length := congrArg Prod.fst hmap.2.1
          have hclen : 0 < c.length := List.length_pos.mpr (hne c (by simp))
          apply hrel
          · rw [hr2, hr.1, hr.2]
          · rw [hr.2]; exact hclen

/-- Claim C2, amended — for every input and every positive chunk size,
`File.putfile` creates index rows whose `(offset, size)` pairs are the
partial sums of the chunk lengths (each next offset equals the previous
offset plus the previous blob's size, offsets strictly increasing from
0), sets `file.size` to the total byte count and `file.checksum` to the
SHA-1 of the whole input.  (With chunk size 0 the read loop terminates
immediately, so the claim's "every chunk size" fails; see the
counterexample.) -/
theorem file_putfile_spec (sha1 : Bytes → Nat) (file : SFile) (db : BlobDB)
    (fileobj : Bytes) (blob_size : Nat)
    (hbs : blob_size ≠ 0)
    (hdb : SizeConsistent sha1 db)
    (hlen : ∀ c c' : Bytes, sha1 c = sha1 c' → c.length = c'.length) :
    ((File.putfile sha1 file db fileobj blob_size).1.map
        (fun r => (r.offset, r.blob.size))
      = offsetSizePairs 0 (chunkRead blob_size fileobj)) ∧
    List.Chain' (fun a b => b.offset = a.offset + a.blob.size ∧ a.offset < b.offset)
      (File.putfile sha1 file db fileobj blob_size).1 ∧
    (File.putfile sha1 file db fileobj blob_size).2.1.size = fileobj.length ∧
    (File.putfile sha1 file db fileobj blob_size).2.1.checksum = sha1 fileobj := by
  have hspec := putfileGo_spec sha1 file.id hlen (chunkRead blob_size fileobj) 0 db hdb
  have hflat := chunkRead_flatten blob_size hbs fileobj
  refine ⟨?_, ?_, ?_, ?_⟩
  · exact hspec.1
  · refine offsetSizePairs_chain _ ?_ _ (chunkRead blob_size fileobj) 0 hspec.1
      (chunkRead_ne_nil blob_size hbs fileobj)
    intro a b hoff hpos
    exact ⟨hoff, by omega⟩
  · show (File.putfileGo sha1 file.id (chunkRead blob_size fileobj) 0 db).2.1
      = fileobj.length
    rw [hspec.2]
    have : ((chunkRead blob_size fileobj).map List.length).sum
        = (chunkRead blob_size fileobj).flatten.length := by
      simp [List.length_flatten]
    rw [this, hflat]
    omega
  · show sha1 (chunkRead blob_size fileobj).flatten = sha1 fileobj
    rw [hflat]

/-- Witness for C2 at a concrete input: the length function as hash (it
is length-consistent), the empty database, input `[5, 6, 7]` with chunk
size 2: rows at offsets 0 and 2 with sizes 2 and 1, `size = 3`. -/
theorem file_putfile_spec_witness :
    ((File.putfile List.length { id := 0, size := 0, checksum := 0 }
        { blobs := [], indexes := [], storage := { saved := [], writes := 0 },
          nextId := 0, nextPath := 0 } [5, 6, 7] 2).1.map
        (fun r => (r.offset, r.blob.size)) = [(0, 2), (2, 1)]) ∧
    (File.putfile List.length { id := 0, size := 0, checksum := 0 }
        { blobs := [], indexes := [], storage := { saved := [], writes := 0 },
          nextId := 0, nextPath := 0 } [5, 6, 7] 2).2.1.size = 3 := by
  have h := file_putfile_spec List.length { id := 0, size := 0, checksum := 0 }
    { blobs := [], indexes := [], storage := { saved := [], writes := 0 },
      nextId := 0, nextPath := 0 } [5, 6, 7] 2
    (by decide) (by intro b hb; cases hb) (fun c c' hc => hc)
  have hchunks : chunkRead 2 [5, 6, 7] = [[5, 6], [7]] := by
    rw [chunkRead]
    simp only [show ¬(([5, 6, 7] : Bytes) = [] ∨ 2 = 0) by simp, dif_neg,
      not_false_eq_true]
    rw [chunkRead]
    simp only [List.take, List.drop]
    rw [chunkRead]
    simp
  refine ⟨?_, ?_⟩
  · rw [h.1, hchunks]
    simp [offsetSizePairs]
  · rw [h.2.2.1]
    simp

/-- Claim C2 counterexample — with chunk size 0 the first `read(0)`
returns the empty byte string and the loop exits at once: a one-byte
input yields `file.size = 0`, not the total byte count 1, and no index
rows. -/
theorem file_putfile_zero_chunk_counterexample :
    (File.putfile List.length { id := 0, size := 0, checksum := 0 }
        { blobs := [], indexes := [], storage := { saved := [], writes := 0 },
          nextId := 0, nextPath := 0 } [1] 0).2.1.size
      ≠ List.length ([1] : Bytes) ∧
    (File.putfile List.length { id := 0, size := 0, checksum := 0 }
        { blobs := [], indexes := [], storage := { saved := [], writes := 0 },
          nextId := 0, nextPath := 0 } [1] 0).1 = [] := by
  have hchunks : chunkRead 0 ([1] : Bytes) = [] := by
    rw [chunkRead]
    simp
  constructor
  · simp [File.putfile, hchunks, File.putfileGo]
  · simp [File.putfile, hchunks, File.putfileGo]

/-- Claim C1 — `FileBlob.from_file` deduplicates by checksum: (1) if a row
with the input's checksum exists, that row is returned and the database
and backend are untouched (no storage write, no new row); (2) if none
exists, exactly one storage write happens and exactly one row is added;
(3) uploading the same bytes twice returns the first call's blob the
second time and leaves all state unchanged by the second call. -/
theorem fileBlob_from_file_dedup (sha1 : Bytes → Nat) (db : BlobDB) (fileobj : Bytes) :
    (∀ ex, FileBlob.lookupChecksum db (sha1 fileobj) = some ex →
      FileBlob.from_file sha1 db fileobj = (ex, db)) ∧
    (FileBlob.lookupChecksum db (sha1 fileobj) = none →
      (FileBlob.from_file sha1 db fileobj).2.blobs.length = db.blobs.length + 1 ∧
      (FileBlob.from_file sha1 db fileobj).2.storage.writes = db.storage.writes + 1) ∧
    (FileBlob.from_file sha1 (FileBlob.from_file sha1 db fileobj).2 fileobj
      = ((FileBlob.from_file sha1 db fileobj).1, (FileBlob.from_file sha1 db fileobj).2)) := by
  refine ⟨?_, ?_, ?_⟩
  · intro ex hex
    simp [FileBlob.from_file, getSizeAndChecksum, hex]
  · intro hnone
    simp [FileBlob.from_file, getSizeAndChecksum, hnone, Storage.save]
  · rcases hlk : FileBlob.lookupChecksum db (sha1 fileobj) with _ | ex
    · have hfind : (db.blobs ++
          [{ id := db.nextId, checksum := sha1 fileobj, size := fileobj.length,
             path := db.nextPath : FileBlob }]).find?
            (fun b => b.checksum == sha1 fileobj)
          = some { id := db.nextId, checksum := sha1 fileobj, size := fileobj.length,
                   path := db.nextPath } := by
        rw [List.find?_append]
        have : db.blobs.find? (fun b => b.checksum == sha1 fileobj) = none := hlk
        simp [this]
      have hlk' : db.blobs.find? (fun b => b.checksum == sha1 fileobj) = none := hlk
      simp [FileBlob.from_file, getSizeAndChecksum, hlk', FileBlob.lookupChecksum, hfind]
    · have hlk' : db.blobs.find? (fun b => b.checksum == sha1 fileobj) = some ex := hlk
      simp [FileBlob.from_file, getSizeAndChecksum, hlk', FileBlob.lookupChecksum]

/-- Witness for C1 at a concrete input: a toy hash, the empty database
and the two-byte input `[1, 2]`; all three conjuncts evaluate. -/
theorem fileBlob_from_file_dedup_witness :
    ((FileBlob.from_file (fun l => l.foldl (fun a b => a * 257 + b + 1) 0)
        { blobs := [], indexes := [], storage := { saved := [], writes := 0 },
          nextId := 0, nextPath := 0 } [1, 2]).2.blobs.length = 0 + 1) ∧
    ((FileBlob.from_file (fun l => l.foldl (fun a b => a * 257 + b + 1) 0)
        { blobs := [], indexes := [], storage := { saved := [], writes := 0 },
          nextId := 0, nextPath := 0 } [1, 2]).2.storage.writes = 0 + 1) := by
  have h := fileBlob_from_file_dedup (fun l => l.foldl (fun a b => a * 257 + b + 1) 0)
    { blobs := [], indexes := [], storage := { saved := [], writes := 0 },
      nextId := 0, nextPath := 0 } [1, 2]
  exact h.2.1 (by decide)

end Sentry

namespace Sentry

/-!
Chunked reader (`ChunkedFileBlobIndexWrapper`)

The Python class holds a list of index rows, a current row `_curidx`, the
open stream of its blob `_curfile`, and an iterator `_idxiter` over the
remaining rows.  We model a row as seen by the wrapper as a `CEntry`
(offset, the blob row's `size` field, and the blob's stored bytes
reachable via `blob.getfile()`), the current stream as the pair of its
entry and read position, and the iterator as the list of rows after the
current one.  The class branches on `self.prefetched` in every method;
the two branches are split into `StreamingReader` and `PrefetchReader`.
-/

/-- An index row as used by the reader: `offset` and `blobSize` are the
`FileBlobIndex`/`FileBlob` columns, `content` the bytes that
`idx.blob.getfile()` streams. -/
structure CEntry where
  offset : Nat
  blobSize : Nat
  content : Bytes
  deriving Repr, DecidableEq

/-- Streaming-mode wrapper state: `cur` is `(_curidx, _curfile.tell())`
(`none` when exhausted), `rest` the rows still in `_idxiter`. -/
structure StreamingReader where
  indexes : List CEntry
  cur : Option (CEntry × Nat)
  rest : List CEntry
  closed : Bool
  deriving Repr, DecidableEq

/-- Python `self.size`: sum of the index rows' blob sizes. -/
def StreamingReader.size (r : StreamingReader) : Nat :=
  (r.indexes.map (·.blobSize)).sum

/-- The `for n, idx in enumerate(self._indexes[::-1])` scan in `seek`:
the last entry whose offset is ≤ pos (scanning from the end, first
match wins) together with the rows after it (`self._indexes[-(n+1):]`
minus the found row, i.e. what `_idxiter` holds after `_nextidx`). -/
def seekScan (pos : Int) : List CEntry → Option (CEntry × List CEntry)
  | [] => none
  | e :: rest =>
    match seekScan pos rest with
    | some r => some r
    | none => if (e.offset : Int) ≤ pos then some (e, rest) else none

/-- Python `seek(pos)` in streaming mode: error when closed or `pos < 0`; scan
for the last entry with offset ≤ pos (error when none); reopen the
blob's stream only when the found entry differs from `_curidx`; finally
`self._curfile.seek(pos - self._curidx.offset)`. -/
def StreamingReader.seek (r : StreamingReader) (pos : Int) :
    Except String StreamingReader :=
  if r.closed then .error "I/O operation on closed file"
  else if pos < 0 then .error "Invalid argument"
  else
    match seekScan pos r.indexes with
    | none => .error "Cannot seek to pos"
    | some es =>
      match r.cur with
      | some cp =>
        if cp.1 = es.1 then
          .ok { r with cur := some (cp.1, (pos - (cp.1.offset : Int)).toNat) }
        else
          .ok { r with cur := some (es.1, (pos - (es.1.offset : Int)).toNat),
                       rest := es.2 }
      | none =>
        .ok { r with cur := some (es.1, (pos - (es.1.offset : Int)).toNat),
                     rest := es.2 }

/-- The constructor in streaming mode: `_curfile = _curidx = None`, then
`open()` sets `closed = False` and performs `seek(0)`. -/
def StreamingReader.mk0 (indexes : List CEntry) : Except String StreamingReader :=
  StreamingReader.seek
    { indexes := indexes, cur := none, rest := [], closed := false } 0

/-- The `read` loop for `n < 0`: drain the current stream in 32768-byte
chunks, calling `_nextidx()` whenever it returns no bytes, until the
iterator is exhausted.  Returns the collected bytes and the final
`(_curfile, _idxiter)` state. -/
def readAllGo : Option (CEntry × Nat) → List CEntry → Bytes →
    Bytes × Option (CEntry × Nat) × List CEntry
  | none, rest, acc => (acc, none, rest)
  | some ep, rest, acc =>
    let chunk := (ep.1.content.drop ep.2).take 32768
    if chunk = [] then
      match rest with
      | [] => readAllGo none [] acc
      | e2 :: tl => readAllGo (some (e2, 0)) tl acc
    else
      readAllGo (some (ep.1, ep.2 + chunk.length)) rest (acc ++ chunk)
termination_by cur rest _ =>
  (match cur with
   | none => 0
   | some ep => ep.1.content.length - ep.2 + 1)
  + (rest.map (fun e => e.content.length + 1)).sum
decreasing_by
  · simp only [List.map, List.sum_cons]
    omega
  · simp only [List.map_cons, List.sum_cons]
    omega
  · rename_i hchunk
    unfold_let chunk at hchunk ⊢
    have hne : ep.1.content.drop ep.2 ≠ [] := by
      intro hnil
      apply hchunk
      simp [hnil]
    have hlt : 0 < ep.1.content.length - ep.2 := by
      have := List.length_pos.mpr hne
      simpa using this
    have hlen : 0 < ((ep.1.content.drop ep.2).take 32768).length :=
      List.length_pos.mpr hchunk
    have hd : ((ep.1.content.drop ep.2).take 32768).length
        = min 32768 (ep.1.content.length - ep.2) := by
      simp
    omega

/-- The `read` loop for `n ≥ 0`: as `readAllGo` but reading at most
`min(n, 32768)` bytes per step and stopping once `n` reaches 0. -/
def readNGo (n : Nat) : Option (CEntry × Nat) → List CEntry → Bytes →
    Bytes × Option (CEntry × Nat) × List CEntry
  | none, rest, acc => (acc, none, rest)
  | some ep, rest, acc =>
    if n = 0 then (acc, some ep, rest)
    else
      let chunk := (ep.1.content.drop ep.2).take (min n 32768)
      if chunk = [] then
        match rest with
        | [] => readNGo n none [] acc
        | e2 :: tl => readNGo n (some (e2, 0)) tl acc
      else
        readNGo (n - chunk.length) (some (ep.1, ep.2 + chunk.length)) rest (acc ++ chunk)
termination_by cur rest _ =>
  (match cur with
   | none => 0
   | some ep => ep.1.content.length - ep.2 + 1)
  + (rest.map (fun e => e.content.length + 1)).sum
decreasing_by
  · simp only [List.map, List.sum_cons]
    omega
  · simp only [List.map_cons, List.sum_cons]
    omega
  · rename_i hchunk
    unfold_let chunk at hchunk ⊢
    have hne : ep.1.content.drop ep.2 ≠ [] := by
      intro hnil
      apply hchunk
      simp [hnil]
    have hlt : 0 < ep.1.content.length - ep.2 := by
      have := List.length_pos.mpr hne
      simpa using this
    have hlen : 0 < ((ep.1.content.drop ep.2).take (min n 32768)).length :=
      List.length_pos.mpr hchunk
    have hd : ((ep.1.content.drop ep.2).take (min n 32768)).length
        = min (min n 32768) (ep.1.content.length - ep.2) := by
      simp
    omega

/-- Python `read(n)` in streaming mode. -/
def StreamingReader.read (r : StreamingReader) (n : Int) :
    Except String (Bytes × StreamingReader) :=
  if r.closed then .error "I/O operation on closed file"
  else if n < 0 then
    let t := readAllGo r.cur r.rest []
    .ok (t.1, { r with cur := t.2.1, rest := t.2.2 })
  else
    let t := readNGo n.toNat r.cur r.rest []
    .ok (t.1, { r with cur := t.2.1, rest := t.2.2 })

/-- Python `tell()` in streaming mode: error when closed; total size when the
stream is exhausted (`_curfile is None`); otherwise the current entry's
offset plus the position within its stream. -/
def StreamingReader.tell (r : StreamingReader) : Except String Nat :=
  if r.closed then .error "I/O operation on closed file"
  else
    match r.cur with
    | none => .ok r.size
    | some ep => .ok (ep.1.offset + ep.2)

/-- Python `close()`: drop `_curfile`/`_curidx` and mark the wrapper closed. -/
def StreamingReader.close (r : StreamingReader) : StreamingReader :=
  { r with cur := none, closed := true }

/-- Prefetch-mode wrapper state: `buf` is the temp file `_prefetch`
materialized, `pos` its read position. -/
structure PrefetchReader where
  buf : Bytes
  pos : Nat
  closed : Bool
  deriving Repr, DecidableEq

/-- One `fetch_file` worker: write a blob's bytes into the mapped
buffer at its index offset (`mem[offset:offset + len(chunk)] = chunk`). -/
def writeAt (buf : Bytes) (offset : Nat) (data : Bytes) : Bytes :=
  buf.take offset ++ data ++ buf.drop (offset + data.length)

/-- Python `_prefetch`: zero-length files short-circuit to an empty temp file;
otherwise zero-fill a buffer of `self.size` bytes and let one worker per
index entry write its blob at its offset.  The workers write exclusive
ranges, so any serialization (here: list order) yields the same buffer. -/
def prefetchBuf (indexes : List CEntry) : Bytes :=
  let size := (indexes.map (·.blobSize)).sum
  if size = 0 then []
  else indexes.foldl (fun buf idx => writeAt buf idx.offset idx.content)
    (List.replicate size 0)

/-- The constructor in prefetch mode: `_prefetch()` then `open()`, which
seeks the temp file to 0. -/
def PrefetchReader.mk0 (indexes : List CEntry) : PrefetchReader :=
  { buf := prefetchBuf indexes, pos := 0, closed := false }

/-- Python `read(n)` in prefetch mode: delegate to the temp file. -/
def PrefetchReader.read (r : PrefetchReader) (n : Int) :
    Except String (Bytes × PrefetchReader) :=
  if r.closed then .error "I/O operation on closed file"
  else if n < 0 then
    .ok (r.buf.drop r.pos, { r with pos := r.pos + (r.buf.drop r.pos).length })
  else
    .ok ((r.buf.drop r.pos).take n.toNat,
      { r with pos := r.pos + ((r.buf.drop r.pos).take n.toNat).length })

/-- Python `seek(pos)` in prefetch mode: delegate to the temp file. -/
def PrefetchReader.seek (r : PrefetchReader) (pos : Int) :
    Except String PrefetchReader :=
  if r.closed then .error "I/O operation on closed file"
  else if pos < 0 then .error "Invalid argument"
  else .ok { r with pos := pos.toNat }

/-- Python `tell()` in prefetch mode: delegate to the temp file. -/
def PrefetchReader.tell (r : PrefetchReader) : Except String Nat :=
  if r.closed then .error "I/O operation on closed file"
  else .ok r.pos

/-- Python `close()` in prefetch mode. -/
def PrefetchReader.close (r : PrefetchReader) : PrefetchReader :=
  { r with closed := true }

/-- The file invariant the claims assume of index rows fed to the
reader (spec §3): offsets are the partial sums of the blob sizes and
each row's `size` column equals its stored content's length. -/
def wellIndexedB (off : Nat) : List CEntry → Bool
  | [] => true
  | e :: tl => e.offset == off && e.blobSize == e.content.length
      && wellIndexedB (off + e.content.length) tl

/-- The bytes still ahead of a streaming cursor: the remainder of the
current blob's stream followed by the contents of the rows still in the
iterator. -/
def curRemaining : Option (CEntry × Nat) → List CEntry → Bytes
  | none, _ => []
  | some ep, rest => ep.1.content.drop ep.2 ++ (rest.map (·.content)).flatten

end Sentry

namespace Sentry

theorem readAllGo_none (rest : List CEntry) (acc : Bytes) :
    readAllGo none rest acc = (acc, none, rest) := by
  rw [readAllGo]

theorem readAllGo_some (ep : CEntry × Nat) (rest : List CEntry) (acc : Bytes) :
    readAllGo (some ep) rest acc
      = (if (ep.1.content.drop ep.2).take 32768 = [] then
          match rest with
          | [] => readAllGo none [] acc
          | e2 :: tl => readAllGo (some (e2, 0)) tl acc
        else
          readAllGo (some (ep.1, ep.2 + ((ep.1.content.drop ep.2).take 32768).length))
            rest (acc ++ (ep.1.content.drop ep.2).take 32768)) := by
  conv_lhs => rw [readAllGo.eq_def]

theorem readNGo_none (n : Nat) (rest : List CEntry) (acc : Bytes) :
    readNGo n none rest acc = (acc, none, rest) := by
  rw [readNGo]

theorem readNGo_some (n : Nat) (ep : CEntry × Nat) (rest : List CEntry) (acc : Bytes) :
    readNGo n (some ep) rest acc
      = (if n = 0 then (acc, some ep, rest)
        else if (ep.1.content.drop ep.2).take (min n 32768) = [] then
          match rest with
          | [] => readNGo n none [] acc
          | e2 :: tl => readNGo n (some (e2, 0)) tl acc
        else
          readNGo (n - ((ep.1.content.drop ep.2).take (min n 32768)).length)
            (some (ep.1, ep.2 + ((ep.1.content.drop ep.2).take (min n 32768)).length))
            rest (acc ++ (ep.1.content.drop ep.2).take (min n 32768))) := by
  conv_lhs => rw [readNGo.eq_def]

theorem take_pos_eq_nil {l : Bytes} {n : Nat} (hn : n ≠ 0) (h : l.take n = []) :
    l = [] := by
  have hlen0 : (l.take n).length = 0 := by rw [h]; rfl
  rw [List.length_take] at hlen0
  have : l.length = 0 := by omega
  exact List.eq_nil_of_length_eq_zero this

theorem take_len_append_drop (l : Bytes) (n : Nat) :
    l.take n ++ l.drop (l.take n).length = l := by
  rcases le_or_lt l.length n with hle | hlt
  · rw [List.take_of_length_le hle, List.drop_length, List.append_nil]
  · rw [List.length_take]
    have hmin : min n l.length = n := by omega
    rw [hmin]
    exact List.take_append_drop n l

theorem take_glue (X F : Bytes) (n : Nat) :
    X.take (min n 32768)
      ++ (X.drop (X.take (min n 32768)).length ++ F).take
          (n - (X.take (min n 32768)).length)
      = (X ++ F).take n := by
  have hmn : min n 32768 ≤ n := by omega
  rcases le_or_lt X.length (min n 32768) with hle | hlt
  · have hXt : X.take (min n 32768) = X := List.take_of_length_le hle
    rw [hXt, List.drop_length, List.nil_append]
    rw [List.take_append_eq_append_take]
    congr 1
    exact (List.take_of_length_le (by omega)).symm
  · have hlen : (X.take (min n 32768)).length = min n 32768 := by
      rw [List.length_take]; omega
    rw [hlen]
    calc X.take (min n 32768) ++ (X.drop (min n 32768) ++ F).take (n - min n 32768)
        = X.take (min n 32768)
            ++ ((X.drop (min n 32768)).take (n - min n 32768)
                ++ F.take ((n - min n 32768) - (X.drop (min n 32768)).length)) := by
          rw [List.take_append_eq_append_take]
      _ = (X.take (min n 32768) ++ (X.drop (min n 32768)).take (n - min n 32768))
            ++ F.take (n - X.length) := by
          rw [List.length_drop, ← List.append_assoc]
          congr 2
          omega
      _ = X.take (min n 32768 + (n - min n 32768)) ++ F.take (n - X.length) := by
          rw [List.take_add]
      _ = X.take n ++ F.take (n - X.length) := by
          congr 2
          omega
      _ = (X ++ F).take n := (List.take_append_eq_append_take).symm

theorem readAllGo_fst :
    ∀ (cur : Option (CEntry × Nat)) (rest : List CEntry) (acc : Bytes),
      (readAllGo cur rest acc).1 = acc ++ curRemaining cur rest ∧
      (readAllGo cur rest acc).2.1 = none := by
  intro cur rest acc
  induction cur, rest, acc using readAllGo.induct with
  | case1 rest acc =>
    rw [readAllGo_none]
    simp [curRemaining]
  | case2 ep acc chunk hchunk ih =>
    have hchunk' : (ep.1.content.drop ep.2).take 32768 = [] := hchunk
    have hdrop : ep.1.content.drop ep.2 = [] :=
      take_pos_eq_nil (by norm_num) hchunk'
    have heq : readAllGo (some ep) [] acc = (acc, none, []) := by
      rw [readAllGo_some, if_pos hchunk', readAllGo_none]
    rw [heq]
    simp [curRemaining, hdrop]
  | case3 ep acc chunk hchunk e2 tl ih =>
    have hchunk' : (ep.1.content.drop ep.2).take 32768 = [] := hchunk
    have hdrop : ep.1.content.drop ep.2 = [] :=
      take_pos_eq_nil (by norm_num) hchunk'
    have heq : readAllGo (some ep) (e2 :: tl) acc
        = readAllGo (some (e2, 0)) tl acc := by
      rw [readAllGo_some, if_pos hchunk']
    have hcr : curRemaining (some ep) (e2 :: tl) = curRemaining (some (e2, 0)) tl := by
      simp [curRemaining, hdrop]
    rw [heq, hcr]
    exact ih
  | case4 ep rest acc chunk hchunk ih =>
    have hchunk' : ¬((ep.1.content.drop ep.2).take 32768 = []) := hchunk
    have heq : readAllGo (some ep) rest acc
        = readAllGo
            (some (ep.1, ep.2 + ((ep.1.content.drop ep.2).take 32768).length))
            rest (acc ++ (ep.1.content.drop ep.2).take 32768) := by
      rw [readAllGo_some, if_neg hchunk']
    have ih' :
        (readAllGo
            (some (ep.1, ep.2 + ((ep.1.content.drop ep.2).take 32768).length))
            rest (acc ++ (ep.1.content.drop ep.2).take 32768)).1
          = (acc ++ (ep.1.content.drop ep.2).take 32768)
            ++ curRemaining
              (some (ep.1, ep.2 + ((ep.1.content.drop ep.2).take 32768).length))
              rest ∧
        (readAllGo
            (some (ep.1, ep.2 + ((ep.1.content.drop ep.2).take 32768).length))
            rest (acc ++ (ep.1.content.drop ep.2).take 32768)).2.1 = none := ih
    rw [heq]
    refine ⟨?_, ih'.2⟩
    rw [ih'.1]
    simp only [curRemaining, List.append_assoc]
    congr 1
    rw [← List.append_assoc]
    congr 1
    have hdd : ep.1.content.drop
          (ep.2 + ((ep.1.content.drop ep.2).take 32768).length)
        = (ep.1.content.drop ep.2).drop
            ((ep.1.content.drop ep.2).take 32768).length := by
      rw [List.drop_drop]
    rw [hdd]
    exact take_len_append_drop (ep.1.content.drop ep.2) 32768

theorem readNGo_fst :
    ∀ (n : Nat) (cur : Option (CEntry × Nat)) (rest : List CEntry) (acc : Bytes),
      (readNGo n cur rest acc).1 = acc ++ (curRemaining cur rest).take n := by
  intro n cur rest acc
  induction n, cur, rest, acc using readNGo.induct with
  | case1 n rest acc =>
    rw [readNGo_none]
    simp [curRemaining]
  | case2 ep rest acc =>
    rw [readNGo_some]
    simp
  | case3 n ep acc hn chunk hchunk ih =>
    have hchunk' : (ep.1.content.drop ep.2).take (min n 32768) = [] := hchunk
    have hdrop : ep.1.content.drop ep.2 = [] :=
      take_pos_eq_nil (by omega) hchunk'
    have heq : readNGo n (some ep) [] acc = (acc, none, []) := by
      rw [readNGo_some, if_neg hn, if_pos hchunk', readNGo_none]
    rw [heq]
    simp [curRemaining, hdrop]
  | case4 n ep acc hn chunk hchunk e2 tl ih =>
    have hchunk' : (ep.1.content.drop ep.2).take (min n 32768) = [] := hchunk
    have hdrop : ep.1.content.drop ep.2 = [] :=
      take_pos_eq_nil (by omega) hchunk'
    have heq : readNGo n (some ep) (e2 :: tl) acc
        = readNGo n (some (e2, 0)) tl acc := by
      rw [readNGo_some, if_neg hn, if_pos hchunk']
    have hcr : curRemaining (some ep) (e2 :: tl) = curRemaining (some (e2, 0)) tl := by
      simp [curRemaining, hdrop]
    rw [heq, hcr]
    exact ih
  | case5 n ep rest acc hn chunk hchunk ih =>
    have hchunk' : ¬((ep.1.content.drop ep.2).take (min n 32768) = []) := hchunk
    have heq : readNGo n (some ep) rest acc
        = readNGo (n - ((ep.1.content.drop ep.2).take (min n 32768)).length)
            (some (ep.1, ep.2 + ((ep.1.content.drop ep.2).take (min n 32768)).length))
            rest (acc ++ (ep.1.content.drop ep.2).take (min n 32768)) := by
      rw [readNGo_some, if_neg hn, if_neg hchunk']
    have ih' :
        (readNGo (n - ((ep.1.content.drop ep.2).take (min n 32768)).length)
            (some (ep.1, ep.2 + ((ep.1.content.drop ep.2).take (min n 32768)).length))
            rest (acc ++ (ep.1.content.drop ep.2).take (min n 32768))).1
          = (acc ++ (ep.1.content.drop ep.2).take (min n 32768))
            ++ (curRemaining
                (some (ep.1, ep.2 + ((ep.1.content.drop ep.2).take (min n 32768)).length))
                rest).take
              (n - ((ep.1.content.drop ep.2).take (min n 32768)).length) := ih
    rw [heq, ih']
    simp only [curRemaining, List.append_assoc]
    congr 1
    have hdd : ep.1.content.drop
          (ep.2 + ((ep.1.content.drop ep.2).take (min n 32768)).length)
        = (ep.1.content.drop ep.2).drop
            ((ep.1.content.drop ep.2).take (min n 32768)).length := by
      rw [List.drop_drop]
    rw [hdd]
    exact take_glue (ep.1.content.drop ep.2) ((rest.map (·.content)).flatten) n

theorem seekScan_le (pos : Int) :
    ∀ (l : List CEntry) (e : CEntry) (suf : List CEntry),
      seekScan pos l = some (e, suf) → (e.offset : Int) ≤ pos := by
  intro l
  induction l with
  | nil => intro e suf h; simp [seekScan] at h
  | cons e1 tl ih =>
    intro e suf h
    rw [seekScan] at h
    rcases htl : seekScan pos tl with _ | r
    · rw [htl] at h
      simp only at h
      split at h
      · simp at h
        exact h.1 ▸ ‹(e1.offset : Int) ≤ pos›
      · simp at h
    · rw [htl] at h
      simp only at h
      cases h
      exact ih e suf htl

theorem seekScan_none_head (pos : Int) (e1 : CEntry) (tl : List CEntry) :
    seekScan pos (e1 :: tl) = none → ¬((e1.offset : Int) ≤ pos) := by
  intro h
  rw [seekScan] at h
  rcases htl : seekScan pos tl with _ | r
  · rw [htl] at h
    simp only at h
    split at h
    · simp at h
    · assumption
  · rw [htl] at h
    simp at h

theorem seekScan_mem (pos : Int) :
    ∀ (l : List CEntry) (e : CEntry) (suf : List CEntry),
      seekScan pos l = some (e, suf) → e ∈ l := by
  intro l
  induction l with
  | nil => intro e suf h; simp [seekScan] at h
  | cons e1 tl ih =>
    intro e suf h
    rw [seekScan] at h
    rcases htl : seekScan pos tl with _ | r
    · rw [htl] at h
      simp only at h
      split at h
      · simp at h
        simp [h.1]
      · simp at h
    · rw [htl] at h
      simp only at h
      cases h
      exact List.mem_cons_of_mem _ (ih e suf htl)

theorem seekScan_suffix (pos : Int) :
    ∀ (l : List CEntry) (e : CEntry) (suf : List CEntry),
      seekScan pos l = some (e, suf) → ∃ k, l.drop k = e :: suf := by
  intro l
  induction l with
  | nil => intro e suf h; simp [seekScan] at h
  | cons e1 tl ih =>
    intro e suf h
    rw [seekScan] at h
    rcases htl : seekScan pos tl with _ | r
    · rw [htl] at h
      simp only at h
      split at h
      · simp at h
        exact ⟨0, by simp [h.1, h.2]⟩
      · simp at h
    · rw [htl] at h
      simp only at h
      cases h
      obtain ⟨k, hk⟩ := ih e suf htl
      exact ⟨k + 1, by simpa using hk⟩

theorem wellIndexed_offsets_ge :
    ∀ (l : List CEntry) (off : Nat), wellIndexedB off l = true →
      ∀ e ∈ l, off ≤ e.offset := by
  intro l
  induction l with
  | nil => intro off _ e he; cases he
  | cons e1 tl ih =>
    intro off hw e he
    rw [wellIndexedB] at hw
    simp only [Bool.and_eq_true, beq_iff_eq] at hw
    rcases List.mem_cons.mp he with he2 | he2
    · subst he2; omega
    · have := ih (off + e1.content.length) hw.2 e he2
      omega

theorem seekScan_remaining :
    ∀ (l : List CEntry) (off : Nat), wellIndexedB off l = true →
      ∀ p : Nat, off ≤ p → ∀ e suf, seekScan (p : Int) l = some (e, suf) →
        e.offset ≤ p ∧
        e.content.drop (p - e.offset) ++ (suf.map (·.content)).flatten
          = ((l.map (·.content)).flatten).drop (p - off) := by
  intro l
  induction l with
  | nil => intro off _ p _ e suf h; simp [seekScan] at h
  | cons e1 tl ih =>
    intro off hw p hp e suf h
    rw [wellIndexedB] at hw
    simp only [Bool.and_eq_true, beq_iff_eq] at hw
    obtain ⟨⟨hoff1, _⟩, hwtl⟩ := hw
    rw [seekScan] at h
    rcases htl : seekScan (p : Int) tl with _ | r
    · rw [htl] at h
      simp only at h
      split at h
      · simp only [Option.some.injEq, Prod.mk.injEq] at h
        obtain ⟨he, hsuf⟩ := h
        subst he; subst hsuf
        refine ⟨by omega, ?_⟩
        simp only [List.map_cons, List.flatten_cons]
        cases tl with
        | nil => simp [hoff1]
        | cons e2 tl2 =>
          have hgt := seekScan_none_head (p : Int) e2 tl2 htl
          rw [wellIndexedB] at hwtl
          simp only [Bool.and_eq_true, beq_iff_eq] at hwtl
          have he2off : e2.offset = off + e1.content.length := hwtl.1.1
          have hplt : p < off + e1.content.length := by
            by_contra hge
            apply hgt
            rw [he2off]
            push_cast
            omega
          rw [hoff1]
          rw [List.drop_append_eq_append_drop]
          have : p - off - e1.content.length = 0 := by omega
          rw [this]
          simp
      · simp at h
    · rw [htl] at h
      simp only at h
      cases h
      have hemem := seekScan_mem (p : Int) tl e suf htl
      have hoffge := wellIndexed_offsets_ge tl (off + e1.content.length) hwtl e hemem
      have hople : (e.offset : Int) ≤ (p : Int) := seekScan_le (p : Int) tl e suf htl
      have hople' : e.offset ≤ p := by exact_mod_cast hople
      have hofftl : off + e1.content.length ≤ p := by omega
      have hihres := ih (off + e1.content.length) hwtl p hofftl e suf htl
      refine ⟨hople', ?_⟩
      rw [hihres.2]
      simp only [List.map_cons, List.flatten_cons]
      rw [List.drop_append_eq_append_drop]
      have h1 : (e1.content.drop (p - off)) = [] := by
        apply List.drop_eq_nil_of_le
        omega
      rw [h1]
      have h2 : p - off - e1.content.length = p - (off + e1.content.length) := by omega
      rw [h2]
      simp

theorem mk0_spec (entries : List CEntry)
    (hw : wellIndexedB 0 entries = true) (hne : entries ≠ []) :
    ∃ e suf, seekScan 0 entries = some (e, suf) ∧ e.offset = 0 ∧
      StreamingReader.mk0 entries
        = .ok { indexes := entries, cur := some (e, 0), rest := suf,
                closed := false } ∧
      curRemaining (some (e, 0)) suf = (entries.map (·.content)).flatten := by
  obtain ⟨e1, tl, rfl⟩ := List.exists_cons_of_ne_nil hne
  have hoff1 : e1.offset = 0 := by
    rw [wellIndexedB] at hw
    simp only [Bool.and_eq_true, beq_iff_eq] at hw
    exact hw.1.1
  rcases hscan : seekScan 0 (e1 :: tl) with _ | es
  · exfalso
    exact seekScan_none_head 0 e1 tl hscan (by rw [hoff1]; simp)
  · obtain ⟨e, suf⟩ := es
    have hrem := seekScan_remaining (e1 :: tl) 0 hw 0 (Nat.le_refl 0) e suf
      (by exact_mod_cast hscan)
    have heoff : e.offset = 0 := by
      have h1 := hrem.1
      omega
    refine ⟨e, suf, rfl, heoff, ?_, ?_⟩
    · rw [StreamingReader.mk0, StreamingReader.seek]
      simp only [Bool.false_eq_true, if_false, show ¬((0 : Int) < 0) by omega,
        if_false]
      rw [hscan]
      simp [heoff]
    · simpa [curRemaining, heoff] using hrem.2

theorem mk0_read_all (entries : List CEntry) (hw : wellIndexedB 0 entries = true)
    (r : StreamingReader) (hr : StreamingReader.mk0 entries = .ok r) :
    ∃ r', r.read (-1) = .ok ((entries.map (·.content)).flatten, r') := by
  have hne : entries ≠ [] := by
    intro h
    subst h
    rw [StreamingReader.mk0, StreamingReader.seek] at hr
    simp [seekScan] at hr
  obtain ⟨e, suf, hscan, heoff, hmk, hrem⟩ := mk0_spec entries hw hne
  rw [hmk] at hr
  cases hr
  have hb : (readAllGo (some (e, 0)) suf []).1
      = (entries.map (·.content)).flatten := by
    rw [(readAllGo_fst (some (e, 0)) suf []).1, hrem]
    simp
  refine ⟨{ indexes := entries,
            cur := (readAllGo (some (e, 0)) suf []).2.1,
            rest := (readAllGo (some (e, 0)) suf []).2.2,
            closed := false }, ?_⟩
  have hstep : StreamingReader.read
      { indexes := entries, cur := some (e, 0), rest := suf,
        closed := false } (-1)
      = Except.ok ((readAllGo (some (e, 0)) suf []).1,
          { indexes := entries,
            cur := (readAllGo (some (e, 0)) suf []).2.1,
            rest := (readAllGo (some (e, 0)) suf []).2.2,
            closed := false }) := rfl
  rw [hstep, hb]

/-- Claim C3 — streaming reads: (1) a freshly opened streaming reader over
cumulative-offset index entries, read to exhaustion with negative `n`,
returns exactly the byte-for-byte concatenation of the blobs in index
order; (2) from any open streaming state, `read n` with `n ≥ 0` returns
exactly `min(n, bytes-remaining)` bytes — the next `n` bytes of the
remaining stream, crossing blob boundaries transparently. -/
theorem streaming_read_spec (entries : List CEntry)
    (hw : wellIndexedB 0 entries = true) :
    (∀ r, StreamingReader.mk0 entries = .ok r →
      ∃ r', r.read (-1) = .ok ((entries.map (·.content)).flatten, r')) ∧
    (∀ r : StreamingReader, r.closed = false → ∀ n : Int, 0 ≤ n →
      ∃ r', r.read n
          = .ok ((curRemaining r.cur r.rest).take n.toNat, r') ∧
        ((curRemaining r.cur r.rest).take n.toNat).length
          = min n.toNat (curRemaining r.cur r.rest).length) := by
  constructor
  · exact fun r hr => mk0_read_all entries hw r hr
  · intro r hclosed n hn
    refine ⟨{ r with cur := (readNGo n.toNat r.cur r.rest []).2.1,
                     rest := (readNGo n.toNat r.cur r.rest []).2.2 }, ?_, ?_⟩
    · rw [StreamingReader.read]
      simp [hclosed, show ¬(n < 0) by omega, readNGo_fst n.toNat r.cur r.rest []]
    · rw [List.length_take]

/-- Witness for C3: two blobs `[10, 11]` and `[12]` at offsets 0 and 2;
reading everything yields `[10, 11, 12]`, and `read 2` from the fresh
reader returns the first two bytes. -/
theorem streaming_read_spec_witness :
    (∃ r', (StreamingReader.read
        { indexes := [⟨0, 2, [10, 11]⟩, ⟨2, 1, [12]⟩],
          cur := some (⟨0, 2, [10, 11]⟩, 0), rest := [⟨2, 1, [12]⟩],
          closed := false } (-1))
      = .ok ([10, 11, 12], r')) ∧
    (∃ r', (StreamingReader.read
        { indexes := [⟨0, 2, [10, 11]⟩, ⟨2, 1, [12]⟩],
          cur := some (⟨0, 2, [10, 11]⟩, 0), rest := [⟨2, 1, [12]⟩],
          closed := false } 2)
      = .ok ([10, 11], r')) := by
  have h := streaming_read_spec [⟨0, 2, [10, 11]⟩, ⟨2, 1, [12]⟩]
    (by decide)
  have hmk : StreamingReader.mk0 [⟨0, 2, [10, 11]⟩, ⟨2, 1, [12]⟩]
      = .ok { indexes := [⟨0, 2, [10, 11]⟩, ⟨2, 1, [12]⟩],
              cur := some (⟨0, 2, [10, 11]⟩, 0), rest := [⟨2, 1, [12]⟩],
              closed := false } := by
    rw [StreamingReader.mk0, StreamingReader.seek]
    simp [seekScan]
  constructor
  · obtain ⟨r', hr'⟩ := h.1 _ hmk
    exact ⟨r', by simpa using hr'⟩
  · obtain ⟨r', hr', _⟩ := h.2
      { indexes := [⟨0, 2, [10, 11]⟩, ⟨2, 1, [12]⟩],
        cur := some (⟨0, 2, [10, 11]⟩, 0), rest := [⟨2, 1, [12]⟩],
        closed := false } rfl 2 (by omega)
    refine ⟨r', ?_⟩
    rw [hr']
    simp [curRemaining]

end Sentry

namespace Sentry

/-- Claim C5 — closed-stream use and `tell`: after `close()`, every
`read`/`seek`/`tell` on either mode raises the I/O-operation-on-closed-
file error; on an open streaming reader, `tell()` returns the current
entry's offset plus the position within its stream, or the total size
once the stream is exhausted. -/
theorem closed_use_and_tell_spec (r : StreamingReader) (pr : PrefetchReader) :
    (∀ n : Int, r.close.read n = .error "I/O operation on closed file") ∧
    (∀ p : Int, r.close.seek p = .error "I/O operation on closed file") ∧
    (r.close.tell = .error "I/O operation on closed file") ∧
    (∀ n : Int, pr.close.read n = .error "I/O operation on closed file") ∧
    (∀ p : Int, pr.close.seek p = .error "I/O operation on closed file") ∧
    (pr.close.tell = .error "I/O operation on closed file") ∧
    (r.closed = false → r.cur = none → r.tell = .ok r.size) ∧
    (r.closed = false → ∀ e pos, r.cur = some (e, pos) →
      r.tell = .ok (e.offset + pos)) := by
  refine ⟨?_, ?_, ?_, ?_, ?_, ?_, ?_, ?_⟩
  · intro n
    rw [StreamingReader.read]
    rfl
  · intro p
    rw [StreamingReader.seek]
    rfl
  · rw [StreamingReader.tell]
    rfl
  · intro n
    rw [PrefetchReader.read]
    rfl
  · intro p
    rw [PrefetchReader.seek]
    rfl
  · rw [PrefetchReader.tell]
    rfl
  · intro hclosed hcur
    rw [StreamingReader.tell]
    simp [hclosed, hcur]
  · intro hclosed e pos hcur
    rw [StreamingReader.tell]
    simp [hclosed, hcur]

/-- Witness for C5 at a concrete reader: a closed one-blob reader errors
on `read`, and its open version tells offset + position. -/
theorem closed_use_and_tell_spec_witness :
    (StreamingReader.close
        { indexes := [⟨0, 1, [7]⟩], cur := some (⟨0, 1, [7]⟩, 0), rest := [],
          closed := false }).read 1
      = .error "I/O operation on closed file" ∧
    StreamingReader.tell
        { indexes := [⟨0, 1, [7]⟩], cur := some (⟨0, 1, [7]⟩, 1), rest := [],
          closed := false }
      = .ok (0 + 1) := by
  have h := closed_use_and_tell_spec
    { indexes := [⟨0, 1, [7]⟩], cur := some (⟨0, 1, [7]⟩, 0), rest := [],
      closed := false }
    { buf := [], pos := 0, closed := false }
  refine ⟨h.1 1, ?_⟩
  have h2 := closed_use_and_tell_spec
    { indexes := [⟨0, 1, [7]⟩], cur := some (⟨0, 1, [7]⟩, 1), rest := [],
      closed := false }
    { buf := [], pos := 0, closed := false }
  exact h2.2.2.2.2.2.2.2 rfl ⟨0, 1, [7]⟩ 1 rfl

/-- Claim C10 — a streaming-mode wrapper over an empty index list fails in
the constructor: the initial `open()` performs `seek(0)`, the scan finds
no entry with offset ≤ 0, and the seek raises; in prefetch mode the same
empty file constructs fine (empty temp buffer) and reads as empty. -/
theorem empty_index_reader_spec :
    StreamingReader.mk0 [] = .error "Cannot seek to pos" ∧
    PrefetchReader.mk0 [] = { buf := [], pos := 0, closed := false } ∧
    (PrefetchReader.mk0 []).read (-1)
      = .ok ([], { buf := [], pos := 0, closed := false }) := by
  refine ⟨?_, ?_, ?_⟩
  · rw [StreamingReader.mk0, StreamingReader.seek]
    rfl
  · rw [PrefetchReader.mk0]
    simp [prefetchBuf]
  · rw [PrefetchReader.mk0]
    simp [prefetchBuf, PrefetchReader.read]

theorem wellIndexed_size_eq :
    ∀ (l : List CEntry) (off : Nat), wellIndexedB off l = true →
      (l.map (·.blobSize)).sum = ((l.map (·.content)).flatten).length := by
  intro l
  induction l with
  | nil => intro off _; simp
  | cons e tl ih =>
    intro off hw
    rw [wellIndexedB] at hw
    simp only [Bool.and_eq_true, beq_iff_eq] at hw
    simp only [List.map_cons, List.sum_cons, List.flatten_cons,
      List.length_append]
    rw [hw.1.2, ih (off + e.content.length) hw.2]

theorem wellIndexed_foldl_writeAt :
    ∀ (l : List CEntry) (off : Nat), wellIndexedB off l = true →
      ∀ buf : Bytes,
        buf.length = off + ((l.map (·.content)).flatten).length →
        l.foldl (fun b idx => writeAt b idx.offset idx.content) buf
          = buf.take off ++ (l.map (·.content)).flatten := by
  intro l
  induction l with
  | nil =>
    intro off _ buf hlen
    simp only [List.foldl_nil, List.map_nil, List.flatten_nil, List.append_nil]
    simp at hlen
    exact (List.take_of_length_le (by omega)).symm
  | cons e tl ih =>
    intro off hw buf hlen
    rw [wellIndexedB] at hw
    simp only [Bool.and_eq_true, beq_iff_eq] at hw
    simp only [List.map_cons, List.flatten_cons, List.length_append] at hlen
    have hbuflen : off + e.content.length ≤ buf.length := by omega
    simp only [List.foldl_cons]
    have hw1 : writeAt buf e.offset e.content
        = (buf.take off ++ e.content) ++ buf.drop (off + e.content.length) := by
      rw [writeAt, hw.1.1, List.append_assoc]
    have hwlen : (writeAt buf e.offset e.content).length
        = (off + e.content.length)
          + ((tl.map (·.content)).flatten).length := by
      rw [hw1]
      simp only [List.length_append, List.length_take, List.length_drop]
      omega
    rw [hw1]
    have htake : ((buf.take off ++ e.content) ++ buf.drop (off + e.content.length)).take
          (off + e.content.length)
        = buf.take off ++ e.content := by
      apply List.take_left'
      simp only [List.length_append, List.length_take]
      omega
    have := ih (off + e.content.length) hw.2
      ((buf.take off ++ e.content) ++ buf.drop (off + e.content.length))
      (by rw [← hw1]; exact hwlen)
    rw [this, htake]
    simp only [List.map_cons, List.flatten_cons, List.append_assoc]

theorem prefetchBuf_eq (entries : List CEntry)
    (hw : wellIndexedB 0 entries = true) :
    prefetchBuf entries = (entries.map (·.content)).flatten := by
  rw [prefetchBuf]
  have hsz := wellIndexed_size_eq entries 0 hw
  by_cases h0 : (entries.map (·.blobSize)).sum = 0
  · simp only [h0, if_pos rfl]
    have : ((entries.map (·.content)).flatten).length = 0 := by omega
    exact (List.eq_nil_of_length_eq_zero this).symm
  · simp only [if_neg h0]
    have := wellIndexed_foldl_writeAt entries 0 hw
      (List.replicate ((entries.map (·.blobSize)).sum) 0)
      (by simp [hsz])
    rw [this]
    simp

/-- Claim C9 — prefetch/streaming refinement: (1) reading the prefetch-mode
reader (all blobs materialized into one buffer at their index offsets)
to exhaustion yields exactly the blob concatenation; (2) reading the
streaming-mode reader of the same file to exhaustion yields the same
bytes; (3) a zero-size file short-circuits to an empty temp buffer. -/
theorem prefetch_streaming_equiv (entries : List CEntry)
    (hw : wellIndexedB 0 entries = true) :
    (∃ p', (PrefetchReader.mk0 entries).read (-1)
        = .ok ((entries.map (·.content)).flatten, p')) ∧
    (∀ r, StreamingReader.mk0 entries = .ok r →
      ∃ r', r.read (-1) = .ok ((entries.map (·.content)).flatten, r')) ∧
    ((entries.map (·.blobSize)).sum = 0 → prefetchBuf entries = []) := by
  refine ⟨?_, ?_, ?_⟩
  · refine ⟨{ buf := prefetchBuf entries, pos := 0 + (prefetchBuf entries).length,
              closed := false }, ?_⟩
    rw [PrefetchReader.mk0, PrefetchReader.read]
    simp [prefetchBuf_eq entries hw]
  · exact fun r hr => mk0_read_all entries hw r hr
  · intro h0
    rw [prefetchBuf, if_pos h0]

/-- Witness for C9: the single-blob file `[7]`; both modes read `[7]`. -/
theorem prefetch_streaming_equiv_witness :
    (∃ p', (PrefetchReader.mk0 [⟨0, 1, [7]⟩]).read (-1) = .ok ([7], p')) ∧
    (∀ r, StreamingReader.mk0 [⟨0, 1, [7]⟩] = .ok r →
      ∃ r', r.read (-1) = .ok ([7], r')) := by
  have h := prefetch_streaming_equiv [⟨0, 1, [7]⟩] (by decide)
  exact ⟨h.1, h.2.1⟩

end Sentry

namespace Sentry

/-- The strict file invariant: `wellIndexedB` plus every blob nonempty
(as holds for any file written by `putfile`, whose chunks are nonempty);
offsets are then strictly increasing and each index entry occurs at a
single position. -/
def wellIndexedStrictB (off : Nat) : List CEntry → Bool
  | [] => true
  | e :: tl => e.offset == off && e.blobSize == e.content.length
      && !e.content.isEmpty && wellIndexedStrictB (off + e.content.length) tl

theorem strict_wellIndexed :
    ∀ (l : List CEntry) (off : Nat), wellIndexedStrictB off l = true →
      wellIndexedB off l = true := by
  intro l
  induction l with
  | nil => intro off _; rfl
  | cons e tl ih =>
    intro off hw
    rw [wellIndexedStrictB] at hw
    simp only [Bool.and_eq_true, beq_iff_eq] at hw
    rw [wellIndexedB]
    simp only [Bool.and_eq_true, beq_iff_eq]
    exact ⟨⟨hw.1.1.1, hw.1.1.2⟩, ih _ hw.2⟩

theorem strict_drop_inj :
    ∀ (l : List CEntry) (off : Nat), wellIndexedStrictB off l = true →
      ∀ (i j : Nat) (a : CEntry) (s t : List CEntry),
        l.drop i = a :: s → l.drop j = a :: t → s = t := by
  intro l
  induction l with
  | nil =>
    intro off _ i j a s t hi hj
    simp at hi
  | cons e tl ih =>
    intro off hw i j a s t hi hj
    rw [wellIndexedStrictB] at hw
    simp only [Bool.and_eq_true, beq_iff_eq] at hw
    have hnotin : e ∉ tl := by
      intro hmem
      have hge := wellIndexed_offsets_ge tl (off + e.content.length)
        (strict_wellIndexed tl _ hw.2) e hmem
      have hne : e.content ≠ [] := by
        have h2 := hw.1.2
        intro hnil
        rw [hnil] at h2
        simp at h2
      have hlen : 0 < e.content.length := List.length_pos.mpr hne
      have hoff : e.offset = off := hw.1.1.1
      omega
    cases i with
    | zero =>
      cases j with
      | zero =>
        rw [List.drop_zero] at hi hj
        cases hi
        cases hj
        rfl
      | succ j' =>
        rw [List.drop_zero] at hi
        cases hi
        rw [List.drop_succ_cons] at hj
        exact absurd (List.mem_of_mem_drop
          (by rw [hj]; exact List.mem_cons_self e t)) hnotin
    | succ i' =>
      cases j with
      | zero =>
        rw [List.drop_zero] at hj
        cases hj
        rw [List.drop_succ_cons] at hi
        exact absurd (List.mem_of_mem_drop
          (by rw [hi]; exact List.mem_cons_self e s)) hnotin
      | succ j' =>
        rw [List.drop_succ_cons] at hi hj
        exact ih (off + e.content.length) hw.2 i' j' a s t hi hj

theorem mk0_seek (entries : List CEntry)
    (hw : wellIndexedStrictB 0 entries = true)
    (r : StreamingReader) (hr : StreamingReader.mk0 entries = .ok r)
    (p : Nat) (e : CEntry) (suf : List CEntry)
    (hscan : seekScan (p : Int) entries = some (e, suf)) :
    r.seek (p : Int)
      = .ok { indexes := entries, cur := some (e, p - e.offset), rest := suf,
              closed := false } := by
  have hwB := strict_wellIndexed entries 0 hw
  have hne : entries ≠ [] := by
    intro h
    subst h
    simp [seekScan] at hscan
  obtain ⟨e0, suf0, hscan0, heoff0, hmk, hrem0⟩ := mk0_spec entries hwB hne
  rw [hmk] at hr
  cases hr
  have hele := seekScan_le (p : Int) entries e suf hscan
  have hele' : e.offset ≤ p := by exact_mod_cast hele
  have htoNat : ((p : Int) - (e.offset : Int)).toNat = p - e.offset := by omega
  rw [StreamingReader.seek]
  simp only [Bool.false_eq_true, if_false, show ¬((p : Int) < 0) by omega]
  rw [hscan]
  by_cases he : e0 = e
  · subst he
    obtain ⟨k0, hk0⟩ := seekScan_suffix 0 entries e0 suf0 hscan0
    obtain ⟨k1, hk1⟩ := seekScan_suffix (p : Int) entries e0 suf hscan
    have hsufeq : suf0 = suf := strict_drop_inj entries 0 hw k0 k1 e0 suf0 suf hk0 hk1
    subst hsufeq
    simp [htoNat]
  · simp [he, htoNat]

end Sentry

namespace Sentry

/-- Claim C4, amended — streaming `seek`: it fails on a negative position
and when no index entry has offset ≤ pos (which for a well-indexed
nonempty file never happens for pos ≥ 0 — in particular a position
beyond the final blob's end does NOT fail, the underlying stream is
simply positioned past its EOF); for every position it selects the last
index entry whose offset is ≤ pos (scanning from the end, first match
wins) and positions its stream at `pos - entry.offset`, and for every
position inside the file a subsequent one-byte read returns the byte at
that position of the concatenation. -/
theorem seek_spec (entries : List CEntry)
    (hw : wellIndexedStrictB 0 entries = true) :
    (∀ (r : StreamingReader) (p : Int), r.closed = false → p < 0 →
      r.seek p = .error "Invalid argument") ∧
    (∀ (r : StreamingReader) (p : Int), r.closed = false → 0 ≤ p →
      seekScan p r.indexes = none →
      r.seek p = .error "Cannot seek to pos") ∧
    (∀ r, StreamingReader.mk0 entries = .ok r → ∀ p : Nat, ∃ r',
      r.seek (p : Int) = .ok r') ∧
    (∀ r, StreamingReader.mk0 entries = .ok r →
      ∀ (p : Nat) (e : CEntry) (suf : List CEntry),
        seekScan (p : Int) entries = some (e, suf) →
        r.seek (p : Int)
          = .ok { indexes := entries, cur := some (e, p - e.offset),
                  rest := suf, closed := false } ∧
        ∀ hlt : p < ((entries.map (·.content)).flatten).length,
          ∃ r'', StreamingReader.read
              { indexes := entries, cur := some (e, p - e.offset),
                rest := suf, closed := false } 1
            = .ok ([((entries.map (·.content)).flatten).get ⟨p, hlt⟩], r'')) := by
  have hwB := strict_wellIndexed entries 0 hw
  refine ⟨?_, ?_, ?_, ?_⟩
  · intro r p hclosed hneg
    rw [StreamingReader.seek]
    simp [hclosed, hneg]
  · intro r p hclosed hpos hnone
    rw [StreamingReader.seek]
    simp [hclosed, show ¬(p < 0) by omega, hnone]
  · intro r hr p
    have hne : entries ≠ [] := by
      intro h
      subst h
      rw [StreamingReader.mk0, StreamingReader.seek] at hr
      simp [seekScan] at hr
    obtain ⟨e1, tl, rfl⟩ := List.exists_cons_of_ne_nil hne
    have hoff1 : e1.offset = 0 := by
      rw [wellIndexedStrictB] at hw
      simp only [Bool.and_eq_true, beq_iff_eq] at hw
      exact hw.1.1.1
    rcases hscan : seekScan (p : Int) (e1 :: tl) with _ | es
    · exact absurd (by rw [hoff1]; positivity)
        (seekScan_none_head (p : Int) e1 tl hscan)
    · obtain ⟨e, suf⟩ := es
      exact ⟨_, mk0_seek (e1 :: tl) hw r hr p e suf hscan⟩
  · intro r hr p e suf hscan
    refine ⟨mk0_seek entries hw r hr p e suf hscan, ?_⟩
    intro hlt
    have hele := seekScan_le (p : Int) entries e suf hscan
    have hele' : e.offset ≤ p := by exact_mod_cast hele
    have hrem := seekScan_remaining entries 0 hwB p (Nat.zero_le p) e suf hscan
    have hcr : curRemaining (some (e, p - e.offset)) suf
        = ((entries.map (·.content)).flatten).drop p := by
      simp only [curRemaining]
      have := hrem.2
      simpa using this
    refine ⟨{ indexes := entries,
              cur := (readNGo 1 (some (e, p - e.offset)) suf []).2.1,
              rest := (readNGo 1 (some (e, p - e.offset)) suf []).2.2,
              closed := false }, ?_⟩
    have hstep : StreamingReader.read
        { indexes := entries, cur := some (e, p - e.offset), rest := suf,
          closed := false } 1
        = Except.ok ((readNGo 1 (some (e, p - e.offset)) suf []).1,
            { indexes := entries,
              cur := (readNGo 1 (some (e, p - e.offset)) suf []).2.1,
              rest := (readNGo 1 (some (e, p - e.offset)) suf []).2.2,
              closed := false }) := rfl
    rw [hstep]
    have hbytes : (readNGo 1 (some (e, p - e.offset)) suf []).1
        = [((entries.map (·.content)).flatten).get ⟨p, hlt⟩] := by
      rw [readNGo_fst 1 (some (e, p - e.offset)) suf []]
      rw [hcr]
      rw [List.drop_eq_getElem_cons hlt, List.get_eq_getElem]
      rfl
    rw [hbytes]

/-- Witness for C4: on the one-byte file `[7]`, a negative seek on the
fresh reader errors, and seeking to 0 then reading one byte returns 7. -/
theorem seek_spec_witness :
    (StreamingReader.seek
        { indexes := [⟨0, 1, [7]⟩], cur := some (⟨0, 1, [7]⟩, 0), rest := [],
          closed := false } (-3)
      = .error "Invalid argument") ∧
    (StreamingReader.seek
        { indexes := [⟨0, 1, [7]⟩], cur := some (⟨0, 1, [7]⟩, 0), rest := [],
          closed := false } 0
      = .ok { indexes := [⟨0, 1, [7]⟩], cur := some (⟨0, 1, [7]⟩, 0),
              rest := [], closed := false }) ∧
    (∃ r'', StreamingReader.read
        { indexes := [⟨0, 1, [7]⟩], cur := some (⟨0, 1, [7]⟩, 0), rest := [],
          closed := false } 1 = .ok ([7], r'')) := by
  have h := seek_spec [⟨0, 1, [7]⟩] (by decide)
  have hmk : StreamingReader.mk0 [⟨0, 1, [7]⟩]
      = .ok { indexes := [⟨0, 1, [7]⟩], cur := some (⟨0, 1, [7]⟩, 0),
              rest := [], closed := false } := by
    rw [StreamingReader.mk0, StreamingReader.seek]
    simp [seekScan]
  refine ⟨h.1 _ (-3) rfl (by omega), ?_, ?_⟩
  · have h4 := (h.2.2.2 _ hmk 0 ⟨0, 1, [7]⟩ [] (by decide)).1
    simpa using h4
  · have h4 := (h.2.2.2 _ hmk 0 ⟨0, 1, [7]⟩ [] (by decide)).2 (by decide)
    obtain ⟨r'', hr''⟩ := h4
    exact ⟨r'', by simpa using hr''⟩

/-- Claim C4 counterexample — seeking beyond the total size does not fail:
on a one-byte file, `seek(5)` succeeds (the last index entry has offset
0 ≤ 5, and the blob stream is positioned past its EOF), contradicting
the claim that such a seek fails; a subsequent exhaustive read returns
no bytes. -/
theorem seek_beyond_end_counterexample :
    StreamingReader.mk0 [⟨0, 1, [7]⟩]
      = .ok { indexes := [⟨0, 1, [7]⟩], cur := some (⟨0, 1, [7]⟩, 0),
              rest := [], closed := false } ∧
    StreamingReader.seek
        { indexes := [⟨0, 1, [7]⟩], cur := some (⟨0, 1, [7]⟩, 0), rest := [],
          closed := false } 5
      = .ok { indexes := [⟨0, 1, [7]⟩], cur := some (⟨0, 1, [7]⟩, 5),
              rest := [], closed := false } ∧
    StreamingReader.read
        { indexes := [⟨0, 1, [7]⟩], cur := some (⟨0, 1, [7]⟩, 5), rest := [],
          closed := false } (-1)
      = .ok ([], { indexes := [⟨0, 1, [7]⟩], cur := none, rest := [],
                   closed := false }) := by
  refine ⟨?_, ?_, ?_⟩
  · rw [StreamingReader.mk0, StreamingReader.seek]
    simp [seekScan]
  · rw [StreamingReader.seek]
    simp [seekScan]
  · have hread : readAllGo (some ((⟨0, 1, [7]⟩ : CEntry), 5)) [] ([] : Bytes)
        = ([], none, []) := by
      rw [readAllGo_some, if_pos (by decide)]
      exact readAllGo_none [] []
    rw [StreamingReader.read]
    simp [hread]

end Sentry

namespace Sentry

/-- The sort key of `sorted(file_blobs, key=lambda blob: file_blob_ids.index(blob.id))`. -/
def orderKey (file_blob_ids : List Nat) (b : FileBlob) : Nat :=
  file_blob_ids.indexOf b.id

/-- Python's `sorted` is a stable comparison sort; `insertionSort` is a
stable comparison sort too, and blob ids are primary keys, so the keys
are distinct and every stable sort produces the same list. -/
def sortBlobs (file_blob_ids : List Nat) (blobs : List FileBlob) : List FileBlob :=
  List.insertionSort
    (fun a b => orderKey file_blob_ids a ≤ orderKey file_blob_ids b) blobs

/-- The per-blob loop of `assemble_from_file_blob_ids`: create an index
row at the running offset, stream the blob's stored bytes (via
`blob.getfile().chunks()`) into the temp file and running checksum, and
advance the offset by the blob's `size` column.  Returns the created
rows, the temp file bytes and the final offset. -/
def assembleGo (fileId : Nat) (st : Storage) :
    List FileBlob → Nat → List FileBlobIndex × Bytes × Nat
  | [], offset => ([], [], offset)
  | b :: rest, offset =>
    let content := st.openPath b.path
    let r := assembleGo fileId st rest (offset + b.size)
    ({ fileId := fileId, blob := b, offset := offset } :: r.1,
      content ++ r.2.1, r.2.2)

/-- Python `File.assemble_from_file_blob_ids(file_blob_ids, checksum)`: within
one atomic transaction, load the referenced blobs, re-sort them into the
caller-supplied id order, create index rows at cumulative offsets while
streaming all bytes into a fresh temp file and a running SHA-1; compare
the computed checksum with the expected one, aborting the transaction on
mismatch (modelled by returning `.error` and no updated state).  On
success return the updated file row, the created rows, the temp file's
bytes together with its position (0 after `tf.seek(0)`), and the
database with the rows committed. -/
def File.assemble_from_file_blob_ids (sha1 : Bytes → Nat) (file : SFile)
    (db : BlobDB) (file_blob_ids : List Nat) (checksum : Nat) :
    Except String (SFile × List FileBlobIndex × Bytes × Nat × BlobDB) :=
  let file_blobs := db.blobs.filter (fun b => file_blob_ids.contains b.id)
  let sorted_blobs := sortBlobs file_blob_ids file_blobs
  let r := assembleGo file.id db.storage sorted_blobs 0
  let new_checksum := sha1 r.2.1
  if checksum ≠ new_checksum then .error "Checksum mismatch"
  else
    .ok ({ file with size := r.2.2, checksum := new_checksum }, r.1, r.2.1, 0,
      { db with indexes := db.indexes ++ r.1 })

/-- The database state after `assemble_from_file_blob_ids` returns or
raises: the atomic transaction commits the staged rows on success and
rolls everything back on error. -/
def assembleResultDB (sha1 : Bytes → Nat) (file : SFile) (db : BlobDB)
    (file_blob_ids : List Nat) (checksum : Nat) : BlobDB :=
  match File.assemble_from_file_blob_ids sha1 file db file_blob_ids checksum with
  | .error _ => db
  | .ok r => r.2.2.2.2

/-- The expected `(offset, blob)` pairs of the rows created by assembly:
offsets are the partial sums of the blob `size` columns, in list order. -/
def blobOffsetPairs (base : Nat) : List FileBlob → List (Nat × FileBlob)
  | [] => []
  | b :: rest => (base, b) :: blobOffsetPairs (base + b.size) rest

end Sentry

namespace Sentry

theorem assembleGo_spec (fileId : Nat) (st : Storage) :
    ∀ (blobs : List FileBlob) (offset : Nat),
      ((assembleGo fileId st blobs offset).1.map (fun r => (r.offset, r.blob))
        = blobOffsetPairs offset blobs) ∧
      ((assembleGo fileId st blobs offset).1.map (fun r => r.fileId)
        = blobs.map (fun _ => fileId)) ∧
      ((assembleGo fileId st blobs offset).2.1
        = (blobs.map (fun b => st.openPath b.path)).flatten) ∧
      ((assembleGo fileId st blobs offset).2.2
        = offset + (blobs.map (·.size)).sum) := by
  intro blobs
  induction blobs with
  | nil => intro offset; simp [assembleGo, blobOffsetPairs]
  | cons b rest ih =>
    intro offset
    have ihr := ih (offset + b.size)
    refine ⟨?_, ?_, ?_, ?_⟩
    · simp only [assembleGo, List.map_cons, blobOffsetPairs]
      rw [ihr.1]
    · simp only [assembleGo, List.map_cons]
      rw [ihr.2.1]
    · simp only [assembleGo, List.map_cons, List.flatten_cons]
      rw [ihr.2.2.1]
    · simp only [assembleGo, List.map_cons, List.sum_cons]
      rw [ihr.2.2.2]
      omega

theorem sortBlobs_eq (L blobs : List FileBlob)
    (hnodup : (L.map (·.id)).Nodup)
    (hperm : blobs.Perm L) :
    sortBlobs (L.map (·.id)) blobs = L := by
  have hkey_at : ∀ (k : Nat) (hk : k < L.length),
      orderKey (L.map (·.id)) (L.get ⟨k, hk⟩) = k := by
    intro k hk
    have hk2 : k < (L.map (·.id)).length := by simpa using hk
    show (L.map (·.id)).indexOf (L.get ⟨k, hk⟩).id = k
    have h1 : (L.get ⟨k, hk⟩).id = (L.map (·.id))[k] := by simp
    rw [h1]
    exact List.indexOf_getElem hnodup k hk2
  have hLsorted : L.Pairwise
      (fun a b => orderKey (L.map (·.id)) a < orderKey (L.map (·.id)) b) := by
    rw [List.pairwise_iff_get]
    intro i j hij
    rw [hkey_at i.1 i.2, hkey_at j.1 j.2]
    exact hij
  haveI hTot : IsTotal FileBlob
      (fun a b => orderKey (L.map (·.id)) a ≤ orderKey (L.map (·.id)) b) :=
    ⟨fun a b => Nat.le_total _ _⟩
  haveI hTrans : IsTrans FileBlob
      (fun a b => orderKey (L.map (·.id)) a ≤ orderKey (L.map (·.id)) b) :=
    ⟨fun _ _ _ h1 h2 => Nat.le_trans h1 h2⟩
  haveI hAnti : IsAntisymm FileBlob
      (fun a b => orderKey (L.map (·.id)) a < orderKey (L.map (·.id)) b) :=
    ⟨fun _ _ h1 h2 => absurd h2 (Nat.lt_asymm h1)⟩
  have hSperm : List.Perm (sortBlobs (L.map (·.id)) blobs) L :=
    (List.perm_insertionSort _ blobs).trans hperm
  have hSsorted : List.Sorted
      (fun a b => orderKey (L.map (·.id)) a ≤ orderKey (L.map (·.id)) b)
      (sortBlobs (L.map (·.id)) blobs) :=
    List.sorted_insertionSort _ blobs
  have hLne : L.Pairwise
      (fun a b => orderKey (L.map (·.id)) a ≠ orderKey (L.map (·.id)) b) :=
    hLsorted.imp (fun h => Nat.ne_of_lt h)
  have hSne : (sortBlobs (L.map (·.id)) blobs).Pairwise
      (fun a b => orderKey (L.map (·.id)) a ≠ orderKey (L.map (·.id)) b) := by
    refine (List.Perm.pairwise_iff ?_ hSperm).mpr hLne
    intro a b h
    exact Ne.symm h
  have hSlt : (sortBlobs (L.map (·.id)) blobs).Pairwise
      (fun a b => orderKey (L.map (·.id)) a < orderKey (L.map (·.id)) b) :=
    (hSsorted.and hSne).imp (fun h => Nat.lt_of_le_of_ne h.1 h.2)
  exact List.eq_of_perm_of_sorted hSperm hSlt hLsorted

end Sentry

namespace Sentry

theorem blobOffsetPairs_snd :
    ∀ (L : List FileBlob) (base : Nat),
      (blobOffsetPairs base L).map Prod.snd = L := by
  intro L
  induction L with
  | nil => intro base; rfl
  | cons b rest ih =>
    intro base
    simp only [blobOffsetPairs, List.map_cons, ih]

/-- Claim C6 — assembly with a wrong expected checksum: when the SHA-1 of
the assembled bytes differs from the caller-supplied checksum, the call
raises the checksum-mismatch error and the enclosing atomic transaction
commits nothing — the database (in particular its `FileBlobIndex` table)
is unchanged and no file metadata is persisted. -/
theorem assemble_mismatch_spec (sha1 : Bytes → Nat) (file : SFile)
    (db : BlobDB) (file_blob_ids : List Nat) (checksum : Nat)
    (hmm : checksum ≠ sha1 ((assembleGo file.id db.storage
        (sortBlobs file_blob_ids
          (db.blobs.filter (fun b => file_blob_ids.contains b.id))) 0).2.1)) :
    File.assemble_from_file_blob_ids sha1 file db file_blob_ids checksum
      = .error "Checksum mismatch" ∧
    assembleResultDB sha1 file db file_blob_ids checksum = db ∧
    (assembleResultDB sha1 file db file_blob_ids checksum).indexes
      = db.indexes := by
  have herr : File.assemble_from_file_blob_ids sha1 file db file_blob_ids checksum
      = .error "Checksum mismatch" := by
    simp only [File.assemble_from_file_blob_ids]
    rw [if_pos hmm]
  refine ⟨herr, ?_, ?_⟩
  · rw [assembleResultDB, herr]
  · rw [assembleResultDB, herr]

/-- Witness for C6: empty database, one referenced id, expected checksum
5 against an empty assembly (digest 0): error raised, database intact. -/
theorem assemble_mismatch_spec_witness :
    File.assemble_from_file_blob_ids List.length
        { id := 0, size := 0, checksum := 0 }
        { blobs := [], indexes := [], storage := { saved := [], writes := 0 },
          nextId := 0, nextPath := 0 } [0] 5
      = .error "Checksum mismatch" ∧
    assembleResultDB List.length { id := 0, size := 0, checksum := 0 }
        { blobs := [], indexes := [], storage := { saved := [], writes := 0 },
          nextId := 0, nextPath := 0 } [0] 5
      = { blobs := [], indexes := [], storage := { saved := [], writes := 0 },
          nextId := 0, nextPath := 0 } := by
  have h := assemble_mismatch_spec List.length
    { id := 0, size := 0, checksum := 0 }
    { blobs := [], indexes := [], storage := { saved := [], writes := 0 },
      nextId := 0, nextPath := 0 } [0] 5 (by decide)
  exact ⟨h.1, h.2.1⟩

/-- Claim C7 — successful assembly: for a caller-supplied id list (the ids
of blobs `L` in caller order, all distinct) whose referenced blobs the
query returns in arbitrary database order, and a matching expected
checksum, `assemble_from_file_blob_ids` re-sorts the blobs into the
caller order, creates index rows at cumulative offsets (each offset the
sum of the sizes of the preceding blobs in that order), persists
`size`/`checksum` on the file, commits the rows, and returns the temp
file holding the blob concatenation positioned at the start. -/
theorem assemble_success_spec (sha1 : Bytes → Nat) (file : SFile)
    (db : BlobDB) (L : List FileBlob) (checksum : Nat)
    (hnodup : (L.map (·.id)).Nodup)
    (hfilter : List.Perm
      (db.blobs.filter (fun b => (L.map (·.id)).contains b.id)) L)
    (hck : checksum
      = sha1 ((L.map (fun b => db.storage.openPath b.path)).flatten)) :
    File.assemble_from_file_blob_ids sha1 file db (L.map (·.id)) checksum
      = .ok ({ file with
                size := (L.map (·.size)).sum,
                checksum := sha1
                  ((L.map (fun b => db.storage.openPath b.path)).flatten) },
          (assembleGo file.id db.storage L 0).1,
          (L.map (fun b => db.storage.openPath b.path)).flatten, 0,
          { db with
              indexes := db.indexes ++ (assembleGo file.id db.storage L 0).1 }) ∧
    ((assembleGo file.id db.storage L 0).1.map (fun r => (r.offset, r.blob))
      = blobOffsetPairs 0 L) ∧
    ((assembleGo file.id db.storage L 0).1.map (fun r => r.blob) = L) := by
  have hsorted : sortBlobs (L.map (·.id))
      (db.blobs.filter (fun b => (L.map (·.id)).contains b.id)) = L :=
    sortBlobs_eq L _ hnodup hfilter
  have hspec := assembleGo_spec file.id db.storage L 0
  refine ⟨?_, hspec.1, ?_⟩
  · simp only [File.assemble_from_file_blob_ids, hsorted]
    rw [if_neg (by rw [hspec.2.2.1, ← hck]; simp)]
    rw [hspec.2.2.1, hspec.2.2.2]
    simp
  · have h1 := congrArg (List.map Prod.snd) hspec.1
    rw [List.map_map, blobOffsetPairs_snd] at h1
    exact h1

/-- Witness for C7: two stored blobs assembled in the reverse of their
database order; the rows come out in caller order at offsets 0 and 2,
the temp file holds the reordered concatenation. -/
theorem assemble_success_spec_witness :
    File.assemble_from_file_blob_ids List.length
        { id := 0, size := 0, checksum := 0 }
        { blobs := [{ id := 10, checksum := 100, size := 1, path := 0 },
                    { id := 11, checksum := 101, size := 2, path := 1 }],
          indexes := [],
          storage := { saved := [(0, [5]), (1, [8, 9])], writes := 2 },
          nextId := 12, nextPath := 2 } [11, 10] 3
      = .ok ({ id := 0, size := 3, checksum := 3 },
          [{ fileId := 0, blob := { id := 11, checksum := 101, size := 2, path := 1 },
             offset := 0 },
           { fileId := 0, blob := { id := 10, checksum := 100, size := 1, path := 0 },
             offset := 2 }],
          [8, 9, 5], 0,
          { blobs := [{ id := 10, checksum := 100, size := 1, path := 0 },
                      { id := 11, checksum := 101, size := 2, path := 1 }],
            indexes := [{ fileId := 0,
                          blob := { id := 11, checksum := 101, size := 2, path := 1 },
                          offset := 0 },
                        { fileId := 0,
                          blob := { id := 10, checksum := 100, size := 1, path := 0 },
                          offset := 2 }],
            storage := { saved := [(0, [5]), (1, [8, 9])], writes := 2 },
            nextId := 12, nextPath := 2 }) := by
  have h := assemble_success_spec List.length
    { id := 0, size := 0, checksum := 0 }
    { blobs := [{ id := 10, checksum := 100, size := 1, path := 0 },
                { id := 11, checksum := 101, size := 2, path := 1 }],
      indexes := [],
      storage := { saved := [(0, [5]), (1, [8, 9])], writes := 2 },
      nextId := 12, nextPath := 2 }
    [{ id := 11, checksum := 101, size := 2, path := 1 },
     { id := 10, checksum := 100, size := 1, path := 0 }] 3
    (by decide) (by decide) (by decide)
  exact h.1

end Sentry

namespace Sentry

/-- Body of `FileBlob.from_files`.  The source hashes each input
serially; `exe.submit(_upload_and_pend_chunk(...))` calls the upload
eagerly (the call's result, not the function, is what gets submitted),
and each pending blob is saved by `_flush_blobs` before the next one is
pended, so the pipeline is sequential: hash, reference-checksum check,
intra-batch dedup via `checksums_seen`, existing-row dedup under the
per-checksum lock, else upload + save.  The call runs in no transaction:
when a reference-checksum mismatch raises `IOError`, the blobs already
saved persist, so the database is returned alongside the outcome (the
`finally` block only releases locks).  `blobs_created` collects only
blobs that already existed; newly uploaded blobs are never appended to
it, duplicate inputs are skipped entirely, and the Python function body
has no `return` statement.  The model returns the `blobs_created` list
to make that observable. -/
def fromFilesGo (sha1 : Bytes → Nat) :
    List (Bytes × Option Nat) → List Nat → List FileBlob → BlobDB →
    Except String (List FileBlob) × BlobDB
  | [], _, blobs_created, db => (.ok blobs_created, db)
  | (fileobj, reference_checksum) :: rest, checksums_seen, blobs_created, db =>
    let sc := getSizeAndChecksum sha1 fileobj
    if (match reference_checksum with
        | some r => decide (sc.2 ≠ r)
        | none => false) then
      (.error "Checksum mismatch", db)
    else if checksums_seen.contains sc.2 then
      fromFilesGo sha1 rest checksums_seen blobs_created db
    else
      match FileBlob.lookupChecksum db sc.2 with
      | some existing =>
        fromFilesGo sha1 rest (sc.2 :: checksums_seen)
          (blobs_created ++ [existing]) db
      | none =>
        let blob : FileBlob :=
          { id := db.nextId, checksum := sc.2, size := sc.1, path := db.nextPath }
        fromFilesGo sha1 rest (sc.2 :: checksums_seen) blobs_created
          { blobs := db.blobs ++ [blob],
            indexes := db.indexes,
            storage := db.storage.save blob.path fileobj,
            nextId := db.nextId + 1,
            nextPath := db.nextPath + 1 }

/-- Python `FileBlob.from_files(files)` (without an owning organization). -/
def FileBlob.from_files (sha1 : Bytes → Nat) (db : BlobDB)
    (files : List (Bytes × Option Nat)) :
    Except String (List FileBlob) × BlobDB :=
  fromFilesGo sha1 files [] [] db

/-- Specification of how much a batch uploads: the distinct checksums of
the inputs that are neither in `checksums_seen` nor stored in the
database.  Each of these costs exactly one physical write and one new
row; all other inputs (duplicates of earlier inputs, already-stored
content) cost none. -/
def pendingNew (sha1 : Bytes → Nat) (files : List (Bytes × Option Nat))
    (seen : List Nat) (db : BlobDB) : Finset Nat :=
  (files.map (fun f => sha1 f.1)).toFinset.filter
    (fun c => c ∉ seen ∧ FileBlob.lookupChecksum db c = none)

end Sentry

namespace Sentry

theorem pendingNew_skip (sha1 : Bytes → Nat) (fileobj : Bytes) (r : Option Nat)
    (fs : List (Bytes × Option Nat)) (seen : List Nat) (db : BlobDB)
    (h : sha1 fileobj ∈ seen) :
    pendingNew sha1 ((fileobj, r) :: fs) seen db = pendingNew sha1 fs seen db := by
  ext x
  simp only [pendingNew, List.map_cons, List.toFinset_cons, Finset.mem_filter,
    Finset.mem_insert, List.mem_toFinset]
  constructor
  · rintro ⟨hx | hx, hpred⟩
    · exact absurd (hx ▸ h) hpred.1
    · exact ⟨hx, hpred⟩
  · rintro ⟨hx, hpred⟩
    exact ⟨Or.inr hx, hpred⟩

theorem pendingNew_existing (sha1 : Bytes → Nat) (fileobj : Bytes) (r : Option Nat)
    (fs : List (Bytes × Option Nat)) (seen : List Nat) (db : BlobDB)
    (ex : FileBlob)
    (h : FileBlob.lookupChecksum db (sha1 fileobj) = some ex) :
    pendingNew sha1 ((fileobj, r) :: fs) seen db
      = pendingNew sha1 fs (sha1 fileobj :: seen) db := by
  ext x
  simp only [pendingNew, List.map_cons, List.toFinset_cons, Finset.mem_filter,
    Finset.mem_insert, List.mem_toFinset, List.mem_cons]
  constructor
  · rintro ⟨hx | hx, hns, hlk⟩
    · rw [hx, h] at hlk
      cases hlk
    · refine ⟨hx, ?_, hlk⟩
      rintro (hxc | hxs)
      · rw [hxc, h] at hlk
        cases hlk
      · exact hns hxs
  · rintro ⟨hx, hns, hlk⟩
    exact ⟨Or.inr hx, fun hxs => hns (Or.inr hxs), hlk⟩

theorem pendingNew_upload_card (sha1 : Bytes → Nat) (fileobj : Bytes)
    (r : Option Nat) (fs : List (Bytes × Option Nat)) (seen : List Nat)
    (db db' : BlobDB) (blob : FileBlob)
    (hs : sha1 fileobj ∉ seen)
    (h : FileBlob.lookupChecksum db (sha1 fileobj) = none)
    (hbck : blob.checksum = sha1 fileobj)
    (hblobs : db'.blobs = db.blobs ++ [blob]) :
    (pendingNew sha1 ((fileobj, r) :: fs) seen db).card
      = (pendingNew sha1 fs (sha1 fileobj :: seen) db').card + 1 := by
  have hset : pendingNew sha1 ((fileobj, r) :: fs) seen db
      = insert (sha1 fileobj) (pendingNew sha1 fs (sha1 fileobj :: seen) db') := by
    ext x
    simp only [pendingNew, List.map_cons, List.toFinset_cons, Finset.mem_filter,
      Finset.mem_insert, List.mem_toFinset, List.mem_cons]
    by_cases hxc : x = sha1 fileobj
    · subst hxc
      simp [hs, h]
    · have hlk : FileBlob.lookupChecksum db' x = FileBlob.lookupChecksum db x := by
        rw [FileBlob.lookupChecksum, FileBlob.lookupChecksum, hblobs,
          List.find?_append]
        have hbeq : (sha1 fileobj == x) = false := by
          simpa using Ne.symm hxc
        have hnone : [blob].find? (fun b => b.checksum == x) = none := by
          simp [List.find?, hbck, hbeq]
        simp [hnone]
      constructor
      · rintro ⟨hx | hx, hns, hlknone⟩
        · exact absurd hx hxc
        · refine Or.inr ⟨hx, ?_, by rw [hlk]; exact hlknone⟩
          rintro (hxeq | hxs)
          · exact hxc hxeq
          · exact hns hxs
      · rintro (hx | ⟨hx, hns, hlknone⟩)
        · exact absurd hx hxc
        · exact ⟨Or.inr hx, fun hxs => hns (Or.inr hxs), by rw [← hlk]; exact hlknone⟩
  rw [hset, Finset.card_insert_of_not_mem]
  simp [pendingNew]

theorem fromFilesGo_spec (sha1 : Bytes → Nat) :
    ∀ (files : List (Bytes × Option Nat)) (seen : List Nat)
      (created : List FileBlob) (db : BlobDB),
      (∀ f ∈ files, f.2 = (none : Option Nat)) →
      ∃ created' db',
        fromFilesGo sha1 files seen created db = (.ok created', db') ∧
        db'.storage.writes
          = db.storage.writes + (pendingNew sha1 files seen db).card ∧
        db'.blobs.length
          = db.blobs.length + (pendingNew sha1 files seen db).card ∧
        (∀ b ∈ created', b ∈ created ∨ (b ∈ db.blobs ∧ b.checksum ∉ seen)) := by
  intro files
  induction files with
  | nil =>
    intro seen created db _
    refine ⟨created, db, rfl, ?_, ?_, fun b hb => Or.inl hb⟩ <;>
      simp [pendingNew]
  | cons f fs ih =>
    obtain ⟨fileobj, ref⟩ := f
    intro seen created db href
    have hrefnone : ref = none := href (fileobj, ref) (by simp)
    subst hrefnone
    have hreffs : ∀ g ∈ fs, g.2 = (none : Option Nat) :=
      fun g hg => href g (List.mem_cons_of_mem _ hg)
    rw [fromFilesGo]
    simp only [getSizeAndChecksum]
    rw [if_neg (by simp)]
    by_cases hseen : seen.contains (sha1 fileobj) = true
    · rw [if_pos hseen]
      have hmemseen : sha1 fileobj ∈ seen := by
        simpa using hseen
      obtain ⟨created', db', hrun, hw, hb, hc⟩ := ih seen created db hreffs
      refine ⟨created', db', hrun, ?_, ?_, hc⟩
      · rw [hw, pendingNew_skip sha1 fileobj none fs seen db hmemseen]
      · rw [hb, pendingNew_skip sha1 fileobj none fs seen db hmemseen]
    · rw [if_neg hseen]
      have hnotseen : sha1 fileobj ∉ seen := by
        simpa using hseen
      rcases hlk : FileBlob.lookupChecksum db (sha1 fileobj) with _ | ex
      · -- upload path: a new row is saved before the rest is processed
        obtain ⟨created', db', hrun, hw, hb, hc⟩ :=
          ih (sha1 fileobj :: seen) created
            { blobs := db.blobs ++
                [{ id := db.nextId, checksum := sha1 fileobj,
                   size := fileobj.length, path := db.nextPath }],
              indexes := db.indexes,
              storage := db.storage.save db.nextPath fileobj,
              nextId := db.nextId + 1,
              nextPath := db.nextPath + 1 } hreffs
        have hcard := pendingNew_upload_card sha1 fileobj none fs seen db
          { blobs := db.blobs ++
              [{ id := db.nextId, checksum := sha1 fileobj,
                 size := fileobj.length, path := db.nextPath }],
            indexes := db.indexes,
            storage := db.storage.save db.nextPath fileobj,
            nextId := db.nextId + 1,
            nextPath := db.nextPath + 1 }
          { id := db.nextId, checksum := sha1 fileobj,
            size := fileobj.length, path := db.nextPath }
          hnotseen hlk rfl rfl
        refine ⟨created', db', hrun, ?_, ?_, ?_⟩
        · rw [hw, hcard]
          simp [Storage.save]
          omega
        · rw [hb, hcard]
          simp
          omega
        · intro b hbmem
          rcases hc b hbmem with hbc | ⟨hbdb, hbck⟩
          · exact Or.inl hbc
          · rcases List.mem_append.mp hbdb with hbdb2 | hbdb2
            · refine Or.inr ⟨hbdb2, fun hbs => hbck (List.mem_cons_of_mem _ hbs)⟩
            · exfalso
              simp only [List.mem_singleton] at hbdb2
              apply hbck
              rw [hbdb2]
              exact List.mem_cons_self _ _
      · -- dedup hit: the existing row is collected, nothing is written
        have hexmem : ex ∈ db.blobs := List.mem_of_find?_eq_some hlk
        have hexck : ex.checksum = sha1 fileobj := by
          have := List.find?_some hlk
          simpa using this
        obtain ⟨created', db', hrun, hw, hb, hc⟩ :=
          ih (sha1 fileobj :: seen) (created ++ [ex]) db hreffs
        refine ⟨created', db', hrun, ?_, ?_, ?_⟩
        · rw [hw, pendingNew_existing sha1 fileobj none fs seen db ex hlk]
        · rw [hb, pendingNew_existing sha1 fileobj none fs seen db ex hlk]
        · intro b hbmem
          rcases hc b hbmem with hbc | ⟨hbdb, hbck⟩
          · rcases List.mem_append.mp hbc with hbc2 | hbc2
            · exact Or.inl hbc2
            · simp only [List.mem_singleton] at hbc2
              refine Or.inr ⟨hbc2 ▸ hexmem, ?_⟩
              rw [hbc2, hexck]
              exact hnotseen
          · exact Or.inr ⟨hbdb, fun hbs => hbck (List.mem_cons_of_mem _ hbs)⟩

/-- Claim C8, amended — batch dedup without per-input results: for every
batch of byte-sources (no reference checksums supplied), `from_files`
performs exactly one physical write and creates exactly one blob row per
distinct content not already stored — inputs byte-identical to an
earlier input in the batch, and inputs whose content already has a row,
produce no additional write (so the example batch where sources 2 and 5
equal source 1 and the rest are distinct new contents costs exactly N-2
writes); but the call does NOT return one blob reference per input:
`blobs_created` collects only blobs that already existed before the
call, duplicates and newly uploaded blobs contribute no entry, and the
Python function body has no `return` statement (it returns `None`). -/
theorem from_files_batch_dedup (sha1 : Bytes → Nat) (db : BlobDB)
    (files : List (Bytes × Option Nat))
    (href : ∀ f ∈ files, f.2 = (none : Option Nat)) :
    ∃ created' db',
      FileBlob.from_files sha1 db files = (.ok created', db') ∧
      db'.storage.writes
        = db.storage.writes + (pendingNew sha1 files [] db).card ∧
      db'.blobs.length
        = db.blobs.length + (pendingNew sha1 files [] db).card ∧
      (∀ b ∈ created', b ∈ db.blobs) := by
  obtain ⟨created', db', hrun, hw, hb, hc⟩ :=
    fromFilesGo_spec sha1 files [] [] db href
  refine ⟨created', db', hrun, hw, hb, ?_⟩
  intro b hbmem
  rcases hc b hbmem with hbc | ⟨hbdb, _⟩
  · cases hbc
  · exact hbdb

/-- Witness for C8's amended claim at the five-source batch `[1]`, `[1]`,
`[2]`, `[3]`, `[1]` (sources 2 and 5 identical to source 1) with a toy
hash and the empty database: N-2 = 3 writes, 3 new rows, and no result
entries can reference anything (the database held no blobs). -/
theorem from_files_batch_dedup_witness :
    ∃ created' db',
      FileBlob.from_files (fun l => l.foldl (fun a b => a * 257 + b + 1) 0)
        { blobs := [], indexes := [], storage := { saved := [], writes := 0 },
          nextId := 0, nextPath := 0 }
        [([1], none), ([1], none), ([2], none), ([3], none), ([1], none)]
      = (.ok created', db') ∧
      db'.storage.writes = 0 + 3 ∧
      db'.blobs.length = 0 + 3 := by
  obtain ⟨created', db', hrun, hw, hb, _⟩ :=
    from_files_batch_dedup (fun l => l.foldl (fun a b => a * 257 + b + 1) 0)
      { blobs := [], indexes := [], storage := { saved := [], writes := 0 },
        nextId := 0, nextPath := 0 }
      [([1], none), ([1], none), ([2], none), ([3], none), ([1], none)]
      (by decide)
  have hcard : (pendingNew (fun l => l.foldl (fun a b => a * 257 + b + 1) 0)
      [([1], none), ([1], none), ([2], none), ([3], none), ([1], none)] []
      { blobs := [], indexes := [], storage := { saved := [], writes := 0 },
        nextId := 0, nextPath := 0 }).card = 3 := by decide
  rw [hcard] at hw hb
  exact ⟨created', db', hrun, hw, hb⟩

/-- Claim C8 counterexample — `from_files` does not return one blob
reference per input: on the batch `[[1], [1], [2]]` over an empty
database, both distinct contents take the upload path (which never
appends to `blobs_created`) and the duplicate is skipped, so the
collected result list is empty (0 entries, not 3) even though the two
physical writes and two rows happen. -/
theorem from_files_counterexample :
    FileBlob.from_files (fun l => l.foldl (fun a b => a * 257 + b + 1) 0)
        { blobs := [], indexes := [], storage := { saved := [], writes := 0 },
          nextId := 0, nextPath := 0 }
        [([1], none), ([1], none), ([2], none)]
      = (.ok [],
          { blobs := [{ id := 0, checksum := 2, size := 1, path := 0 },
                      { id := 1, checksum := 3, size := 1, path := 1 }],
            indexes := [],
            storage := { saved := [(1, [2]), (0, [1])], writes := 2 },
            nextId := 2, nextPath := 2 }) := by
  rfl

end Sentry
